import Mathlib

/-!
Shallow embedding of the scalar reverse-mode autodiff engine in
`src/value.cpp` (repository `modelplusplus`).

Modelling conventions, following the design notes of the specification:

* The C++ graph is a heap of `std::shared_ptr<Value>` objects.  We model the
  heap as an arena: a state `St` is the list of all `Value` objects ever
  created, and a node handle is its index (`Nat`) in creation order.  Node
  identity (pointer identity in C++) is index equality.
* `Value::data` and `Value::grad` are C++ `float`; the examples and claims
  only involve arithmetic that is exact, so we model scalars as `ℚ`.
* The per-node closure `_backward` of the C++ code captures the two operand
  handles and the output handle; together with the `_op` tag this is exactly
  an operation kind carrying the operand indices, which is how we store it
  (see `Op`).  The `_prev` member is a `std::set<std::shared_ptr<Value>>`,
  i.e. the de-duplicated set of operands ordered by identity; `Op.parents`
  reproduces it as the sorted duplicate-free list of operand indices.
* Each C++ statement that allocates a node (`std::make_shared<Value>(...)`,
  `Value::add`, `Value::multiply`) appends one `Value` to the arena and
  returns its index; statements that mutate a gradient update the arena in
  place.  Both are explicit state passing here.
* `Value::backward(self)` is a member function that seeds `this->grad = 1`
  and walks the topological order built from `self`; every call site in the
  source invokes it as `x->backward(x)`, but we keep both the receiver and
  the argument as separate parameters for faithfulness.
* The C++ DFS `build_topo` recurses with no fuel; it terminates because
  parent indices are strictly smaller than the index of the node that
  references them.  The embedding uses a fuel parameter; `backward` passes
  `s.length`, which is shown to be sufficient for every well-formed state.
-/

namespace MPP

/-- Operation kind of a node: the `_op` tag of `value.cpp` together with the
operand handles captured by the `_backward` closure.  `leaf` corresponds to
the plain `Value(float)` constructor whose `_backward` is a no-op. -/
inductive Op where
  | leaf : Op
  | add : Nat → Nat → Op
  | mul : Nat → Nat → Op
  deriving DecidableEq, Repr

/-- The `_prev` member of `value.cpp`: a `std::set` of the operand handles,
i.e. the operands de-duplicated and ordered by identity (arena index). -/
def Op.parents : Op → List Nat
  | .leaf => []
  | .add a b => if a = b then [a] else if a < b then [a, b] else [b, a]
  | .mul a b => if a = b then [a] else if a < b then [a, b] else [b, a]

/-- One `Value` object of `value.cpp`: scalar `data`, gradient accumulator
`grad`, and the operation record (`_op` tag, `_prev` set and `_backward`
closure all derive from `op`). -/
structure Value where
  data : ℚ
  grad : ℚ
  op : Op
  deriving DecidableEq, Repr

/-- The arena of all nodes created so far, in creation order. -/
abbrev St := List Value

/-- Reading a dangling handle is undefined behaviour in C++; the embedding
totalizes it with a default leaf node.  All claims restrict attention to
valid handles. -/
def defaultValue : Value := ⟨0, 0, .leaf⟩

/-- Dereference a node handle. -/
def getN (s : St) (i : Nat) : Value := s.getD i defaultValue

/-- Assignment `node->grad = g` (no-op on a dangling handle). -/
def setGrad (s : St) (i : Nat) (g : ℚ) : St :=
  s.set i { getN s i with grad := g }

/-- Accumulation `node->grad += g`. -/
def addGrad (s : St) (i : Nat) (g : ℚ) : St :=
  setGrad s i ((getN s i).grad + g)

/-- `std::make_shared<Value>(d)`: allocate a fresh leaf node and return its
handle. -/
def mkShared (s : St) (d : ℚ) : Nat × St :=
  (s.length, s ++ [⟨d, 0, .leaf⟩])

/-- `Value::add(self, other)`: a fresh node with the sum as data, the two
operands as parents and the sum rule as backward closure. -/
def Value.add (s : St) (a b : Nat) : Nat × St :=
  (s.length, s ++ [⟨(getN s a).data + (getN s b).data, 0, .add a b⟩])

/-- `Value::multiply(self, other)`: a fresh node with the product as data,
the two operands as parents and the product rule as backward closure. -/
def Value.multiply (s : St) (a b : Nat) : Nat × St :=
  (s.length, s ++ [⟨(getN s a).data * (getN s b).data, 0, .mul a b⟩])

/-- Run the `_backward` closure of node `o`, exactly as the C++ lambdas do,
with the two `+=` statements executed sequentially:
for `add`: `self->grad += out->grad; other->grad += out->grad;`
for `multiply`: `self->grad += other->data * out->grad;`
`other->grad += self->data * out->grad;`. -/
def runBackwardStep (s : St) (o : Nat) : St :=
  match (getN s o).op with
  | .leaf => s
  | .add a b =>
      let s1 := addGrad s a (getN s o).grad
      addGrad s1 b (getN s1 o).grad
  | .mul a b =>
      let s1 := addGrad s a ((getN s b).data * (getN s o).grad)
      addGrad s1 b ((getN s1 a).data * (getN s1 o).grad)

/-- The recursive lambda `build_topo` of `Value::backward`: depth-first
search over `_prev` with a visited set, appending each node to the
topological order after its parents.  The accumulator is the pair
`(visited, topo)`.  The fuel argument only totalizes the recursion; it is
immaterial on well-formed states (see `buildTopo_ok`). -/
def buildTopo (s : St) : Nat → Nat → List Nat × List Nat → List Nat × List Nat
  | 0, _, acc => acc
  | fuel + 1, v, acc =>
      if v ∈ acc.1 then acc
      else
        let acc1 := ((getN s v).op.parents).foldl
          (fun a c => buildTopo s fuel c a) (v :: acc.1, acc.2)
        (acc1.1, acc1.2 ++ [v])

/-- The topological order that `Value::backward` builds from `selfN`. -/
def topoOf (s : St) (selfN : Nat) : List Nat :=
  (buildTopo s s.length selfN ([], [])).2

/-- `Value::backward(self)`: build the topological order from `self`, seed
`this->grad = 1`, then run every node's `_backward` in reverse topological
order.  In the source every call is `x->backward(x)`, so `thisN = selfN` at
each call site. -/
def Value.backward (s : St) (thisN selfN : Nat) : St :=
  let topo := topoOf s selfN
  topo.reverse.foldl runBackwardStep (setGrad s thisN 1)

/-- Well-formedness of an arena: every stored operand handle refers to a
previously created node.  Every state reachable by the constructors above
satisfies this, because operands exist before the node that uses them. -/
def WF (s : St) : Prop :=
  ∀ i, i < s.length → ∀ p ∈ (getN s i).op.parents, p < i

instance : DecidablePred WF := fun s => by
  unfold WF; infer_instance

/-- Reachability along parent edges, the ancestor relation of the DAG. -/
inductive Reaches (s : St) : Nat → Nat → Prop
  | refl (v : Nat) : Reaches s v v
  | step {u v p : Nat} : Reaches s u v → p ∈ (getN s v).op.parents →
      Reaches s u p

/-! ### Basic arena lemmas -/

theorem getN_oob (s : St) (i : Nat) (h : s.length ≤ i) : getN s i = defaultValue :=
  List.getD_eq_default s defaultValue h

theorem getN_append_lt (s t : St) (i : Nat) (h : i < s.length) :
    getN (s ++ t) i = getN s i :=
  List.getD_append s t defaultValue i h

theorem getN_append_self (s : St) (v : Value) : getN (s ++ [v]) s.length = v := by
  unfold getN
  rw [List.getD_append_right s [v] defaultValue s.length (Nat.le_refl _)]
  simp

theorem setGrad_length (s : St) (i : Nat) (g : ℚ) :
    (setGrad s i g).length = s.length := by
  simp [setGrad]

theorem setGrad_oob (s : St) (i : Nat) (g : ℚ) (h : s.length ≤ i) :
    setGrad s i g = s :=
  List.set_eq_of_length_le h

theorem getN_setGrad_ne (s : St) (i j : Nat) (g : ℚ) (h : j ≠ i) :
    getN (setGrad s i g) j = getN s j := by
  unfold setGrad getN
  simp [List.getD, List.getElem?_set_ne (Ne.symm h)]

theorem getN_setGrad_self (s : St) (i : Nat) (g : ℚ) (h : i < s.length) :
    getN (setGrad s i g) i = { getN s i with grad := g } := by
  unfold setGrad getN
  simp [List.getD, List.getElem?_set_self, h]

theorem getN_setGrad_data (s : St) (i k : Nat) (g : ℚ) :
    (getN (setGrad s i g) k).data = (getN s k).data := by
  rcases eq_or_ne k i with rfl | h
  · rcases Nat.lt_or_ge k s.length with hl | hl
    · rw [getN_setGrad_self _ _ _ hl]
    · rw [setGrad_oob _ _ _ hl]
  · rw [getN_setGrad_ne _ _ _ _ h]

theorem getN_setGrad_op (s : St) (i k : Nat) (g : ℚ) :
    (getN (setGrad s i g) k).op = (getN s k).op := by
  rcases eq_or_ne k i with rfl | h
  · rcases Nat.lt_or_ge k s.length with hl | hl
    · rw [getN_setGrad_self _ _ _ hl]
    · rw [setGrad_oob _ _ _ hl]
  · rw [getN_setGrad_ne _ _ _ _ h]

theorem addGrad_length (s : St) (i : Nat) (g : ℚ) :
    (addGrad s i g).length = s.length :=
  setGrad_length _ _ _

theorem addGrad_oob (s : St) (i : Nat) (g : ℚ) (h : s.length ≤ i) :
    addGrad s i g = s :=
  setGrad_oob _ _ _ h

theorem getN_addGrad_ne (s : St) (i j : Nat) (g : ℚ) (h : j ≠ i) :
    getN (addGrad s i g) j = getN s j :=
  getN_setGrad_ne _ _ _ _ h

theorem getN_addGrad_self (s : St) (i : Nat) (g : ℚ) (h : i < s.length) :
    getN (addGrad s i g) i = { getN s i with grad := (getN s i).grad + g } :=
  getN_setGrad_self _ _ _ h

theorem getN_addGrad_data (s : St) (i k : Nat) (g : ℚ) :
    (getN (addGrad s i g) k).data = (getN s k).data :=
  getN_setGrad_data _ _ _ _

theorem getN_addGrad_op (s : St) (i k : Nat) (g : ℚ) :
    (getN (addGrad s i g) k).op = (getN s k).op :=
  getN_setGrad_op _ _ _ _

/-! ### C1: the diamond graph of `test_grad` -/

/-- The state built by `test_grad` in `value.cpp`: leaves `a=1, b=2, c=3,
d=4` (handles 0..3), `e = add(a,b)` (handle 4), `f = multiply(c,d)`
(handle 5), `g = add(e,f)` (handle 6), followed by `g->backward(g)`. -/
def diamondState : St :=
  let s0 : St := []
  let (a, s1) := mkShared s0 1
  let (b, s2) := mkShared s1 2
  let (c, s3) := mkShared s2 3
  let (d, s4) := mkShared s3 4
  let (e, s5) := Value.add s4 a b
  let (f, s6) := Value.multiply s5 c d
  let (g, s7) := Value.add s6 e f
  Value.backward s7 g g

/-- C1. Diamond accumulation: for leaf nodes `a=1, b=2, c=3, d=4`, building
`e=add(a,b)`, `f=multiply(c,d)`, `g=add(e,f)` and calling `backward(g)`
yields `g.value = 15`, `a.gradient = 1`, `b.gradient = 1`, `c.gradient = 4`,
`d.gradient = 3`. -/
theorem C1_diamond_accumulation :
    (getN diamondState 6).data = 15 ∧
    (getN diamondState 0).grad = 1 ∧
    (getN diamondState 1).grad = 1 ∧
    (getN diamondState 2).grad = 4 ∧
    (getN diamondState 3).grad = 3 := by
  norm_num [diamondState, mkShared, Value.add, Value.multiply, Value.backward,
    topoOf, buildTopo, Op.parents, getN, setGrad, addGrad, runBackwardStep,
    defaultValue]

/-! ### Reduction lemmas for the backward closures -/

theorem runBackwardStep_leaf (s : St) (o : Nat) (h : (getN s o).op = .leaf) :
    runBackwardStep s o = s := by
  unfold runBackwardStep
  rw [h]

theorem runBackwardStep_add (s : St) (o a b : Nat) (h : (getN s o).op = .add a b) :
    runBackwardStep s o =
      addGrad (addGrad s a (getN s o).grad) b
        (getN (addGrad s a (getN s o).grad) o).grad := by
  unfold runBackwardStep
  rw [h]

theorem runBackwardStep_mul (s : St) (o a b : Nat) (h : (getN s o).op = .mul a b) :
    runBackwardStep s o =
      addGrad (addGrad s a ((getN s b).data * (getN s o).grad)) b
        ((getN (addGrad s a ((getN s b).data * (getN s o).grad)) a).data *
          (getN (addGrad s a ((getN s b).data * (getN s o).grad)) o).grad) := by
  unfold runBackwardStep
  rw [h]

/-! ### C9: constructing a node does not mutate the operands -/

/-- C9. `add` and `multiply` return a brand-new node (its handle is the next
free index) and leave every existing node — in particular both operands —
entirely unchanged: data, gradient, parent set and backward rule all
coincide with their values before the call.  The only record of the new edge
is the returned node's own operation record (its parent set). -/
theorem C9_construction_leaves_operands_unchanged (s : St) (a b i : Nat)
    (h : i < s.length) :
    getN (Value.add s a b).2 i = getN s i ∧
    getN (Value.multiply s a b).2 i = getN s i ∧
    (Value.add s a b).1 = s.length ∧
    (Value.multiply s a b).1 = s.length ∧
    (getN (Value.add s a b).2 (Value.add s a b).1).op = Op.add a b ∧
    (getN (Value.multiply s a b).2 (Value.multiply s a b).1).op = Op.mul a b := by
  refine ⟨getN_append_lt _ _ _ h, getN_append_lt _ _ _ h, rfl, rfl, ?_, ?_⟩
  · show (getN (s ++ [_]) s.length).op = _
    rw [getN_append_self]
  · show (getN (s ++ [_]) s.length).op = _
    rw [getN_append_self]

/-- A tiny concrete arena: two leaves with data 3 and 5 and no edges. -/
def twoLeafState : St := [⟨3, 0, .leaf⟩, ⟨5, 0, .leaf⟩]

/-- Closed instance of `C9_construction_leaves_operands_unchanged` on
`twoLeafState` with operands 0 and 1, checking the frame at node 0. -/
theorem C9_witness :
    (0 < twoLeafState.length) ∧
    (getN (Value.add twoLeafState 0 1).2 0 = getN twoLeafState 0 ∧
      getN (Value.multiply twoLeafState 0 1).2 0 = getN twoLeafState 0 ∧
      (Value.add twoLeafState 0 1).1 = twoLeafState.length ∧
      (Value.multiply twoLeafState 0 1).1 = twoLeafState.length ∧
      (getN (Value.add twoLeafState 0 1).2 (Value.add twoLeafState 0 1).1).op =
        Op.add 0 1 ∧
      (getN (Value.multiply twoLeafState 0 1).2
          (Value.multiply twoLeafState 0 1).1).op = Op.mul 0 1) :=
  ⟨by decide, C9_construction_leaves_operands_unchanged twoLeafState 0 1 0 (by decide)⟩

/-! ### C2: the full contract of `Value::multiply` -/

/-- The contract the specification states for `multiply(a, b)`: the result
is a fresh node whose data is the product, whose gradient starts at 0 and
whose parent set is `{a, b}`; construction changes no existing node; and
running the node's backward closure after seeding its gradient to `g` adds
`b.data * g` to `a.grad` and `a.data * g` to `b.grad` (both increments
landing on the same node when `a = b`) while touching no other node. -/
def MultiplySpec (s : St) (a b : Nat) (g : ℚ) : Prop :=
  (Value.multiply s a b).1 = s.length ∧
  (getN (Value.multiply s a b).2 s.length).data =
      (getN s a).data * (getN s b).data ∧
  (getN (Value.multiply s a b).2 s.length).grad = 0 ∧
  (∀ p, p ∈ (getN (Value.multiply s a b).2 s.length).op.parents ↔
      p = a ∨ p = b) ∧
  (∀ k, k < s.length → getN (Value.multiply s a b).2 k = getN s k) ∧
  (a ≠ b →
    (getN (runBackwardStep (setGrad (Value.multiply s a b).2 s.length g) s.length)
          a).grad = (getN s a).grad + (getN s b).data * g ∧
    (getN (runBackwardStep (setGrad (Value.multiply s a b).2 s.length g) s.length)
          b).grad = (getN s b).grad + (getN s a).data * g) ∧
  (a = b →
    (getN (runBackwardStep (setGrad (Value.multiply s a b).2 s.length g) s.length)
          a).grad
      = (getN s a).grad + ((getN s a).data * g + (getN s a).data * g)) ∧
  (∀ k, ¬ k = a → ¬ k = b →
    getN (runBackwardStep (setGrad (Value.multiply s a b).2 s.length g) s.length) k
      = getN (setGrad (Value.multiply s a b).2 s.length g) k)

theorem mem_parents_add (a b p : Nat) :
    p ∈ (Op.add a b).parents ↔ p = a ∨ p = b := by
  unfold Op.parents
  rcases eq_or_ne a b with rfl | hab
  · simp
  · rcases Nat.lt_or_ge a b with h | h
    · simp [if_neg hab, if_pos h]
    · have : ¬ a < b := Nat.not_lt.mpr h
      simp [if_neg hab, if_neg this, or_comm]

theorem mem_parents_mul (a b p : Nat) :
    p ∈ (Op.mul a b).parents ↔ p = a ∨ p = b := by
  unfold Op.parents
  rcases eq_or_ne a b with rfl | hab
  · simp
  · rcases Nat.lt_or_ge a b with h | h
    · simp [if_neg hab, if_pos h]
    · have : ¬ a < b := Nat.not_lt.mpr h
      simp [if_neg hab, if_neg this, or_comm]

theorem multiply_snd (s : St) (a b : Nat) :
    (Value.multiply s a b).2 =
      s ++ [⟨(getN s a).data * (getN s b).data, 0, .mul a b⟩] := rfl

theorem add_snd (s : St) (a b : Nat) :
    (Value.add s a b).2 =
      s ++ [⟨(getN s a).data + (getN s b).data, 0, .add a b⟩] := rfl

/-- C2. `multiply(a, b)` satisfies the full product-node contract
`MultiplySpec` for every pair of valid operand handles and every seed
gradient `g`. -/
theorem C2_multiply_contract (s : St) (a b : Nat) (g : ℚ)
    (ha : a < s.length) (hb : b < s.length) : MultiplySpec s a b g := by
  have hlen2 : s.length < ((Value.multiply s a b).2).length := by
    rw [multiply_snd]; simp
  have hao : a ≠ s.length := Nat.ne_of_lt ha
  have hbo : b ≠ s.length := Nat.ne_of_lt hb
  have hnew : getN (Value.multiply s a b).2 s.length =
      ⟨(getN s a).data * (getN s b).data, 0, .mul a b⟩ := by
    rw [multiply_snd]; exact getN_append_self s _
  have h2k : ∀ k, k < s.length → getN (Value.multiply s a b).2 k = getN s k := by
    intro k hk
    rw [multiply_snd]; exact getN_append_lt _ _ _ hk
  set t := setGrad (Value.multiply s a b).2 s.length g with ht
  have hto : getN t s.length = ⟨(getN s a).data * (getN s b).data, g, .mul a b⟩ := by
    rw [ht, getN_setGrad_self _ _ _ hlen2, hnew]
  have htk : ∀ k, k < s.length → getN t k = getN s k := by
    intro k hk
    rw [ht, getN_setGrad_ne _ _ _ _ (Nat.ne_of_lt hk)]
    exact h2k k hk
  have hstep : runBackwardStep t s.length =
      addGrad (addGrad t a ((getN t b).data * (getN t s.length).grad)) b
        ((getN (addGrad t a ((getN t b).data * (getN t s.length).grad)) a).data *
          (getN (addGrad t a ((getN t b).data * (getN t s.length).grad))
            s.length).grad) := by
    refine runBackwardStep_mul t s.length a b ?_
    rw [hto]
  have htb : (getN t b).data = (getN s b).data := by rw [htk b hb]
  have hta : (getN t a).grad = (getN s a).grad := by rw [htk a ha]
  have htlen : t.length = s.length + 1 := by
    rw [ht, setGrad_length, multiply_snd]; simp
  have haT : a < t.length := by omega
  have hbT : b < t.length := by omega
  set s1 := addGrad t a ((getN t b).data * (getN t s.length).grad) with hs1
  have hs1o : getN s1 s.length = getN t s.length := by
    rw [hs1]; exact getN_addGrad_ne _ _ _ _ (Ne.symm hao)
  have hs1a_data : (getN s1 a).data = (getN s a).data := by
    rw [hs1, getN_addGrad_data, htk a ha]
  refine ⟨rfl, by rw [hnew], by rw [hnew], ?_, h2k, ?_, ?_, ?_⟩
  · intro p
    rw [hnew]
    exact mem_parents_mul a b p
  · intro hab
    have hbS1 : b < s1.length := by rw [hs1, addGrad_length]; omega
    constructor
    · rw [hstep, getN_addGrad_ne _ _ _ _ hab, hs1, getN_addGrad_self _ _ _ haT,
        hto, htb, hta]
    · rw [hstep, getN_addGrad_self _ _ _ hbS1, hs1a_data, hs1o, hto, hs1,
        getN_addGrad_ne _ _ _ _ (Ne.symm hab), htk b hb]
  · intro hab
    subst hab
    have haS1 : a < s1.length := by rw [hs1, addGrad_length]; omega
    rw [hstep, getN_addGrad_self _ _ _ haS1, hs1a_data, hs1o, hto, hs1,
      getN_addGrad_self _ _ _ haT, hto, hta, htb]
    dsimp only
    ring
  · intro k hka hkb
    rw [hstep, getN_addGrad_ne _ _ _ _ hkb, hs1, getN_addGrad_ne _ _ _ _ hka]

/-- Closed instance of `C2_multiply_contract`: `a.data = 3`, `b.data = 5`,
seed gradient 1, matching the product-derivative test of the spec. -/
theorem C2_witness :
    (0 < twoLeafState.length ∧ 1 < twoLeafState.length) ∧
    MultiplySpec twoLeafState 0 1 1 :=
  ⟨⟨by decide, by decide⟩, C2_multiply_contract twoLeafState 0 1 1 (by decide) (by decide)⟩

/-! ### Reachability lemmas -/

/-- Parent handles are strictly below the node's own handle, at every index
(out-of-range indices hold the default leaf, which has no parents). -/
theorem WF.parents_lt {s : St} (h : WF s) :
    ∀ i, ∀ p ∈ (getN s i).op.parents, p < i := by
  intro i p hp
  rcases Nat.lt_or_ge i s.length with hi | hi
  · exact h i hi p hp
  · rw [getN_oob s i hi] at hp
    simp [defaultValue, Op.parents] at hp

theorem Reaches.comp {s : St} {a b c : Nat} (h1 : Reaches s a b)
    (h2 : Reaches s b c) : Reaches s a c := by
  induction h2 with
  | refl => exact h1
  | step _ hp ih => exact Reaches.step ih hp

theorem Reaches.le {s : St} (hWF : WF s) {u x : Nat} (h : Reaches s u x) :
    x ≤ u := by
  induction h with
  | refl => exact Nat.le_refl _
  | step _ hp ih => exact Nat.le_of_lt (Nat.lt_of_lt_of_le (hWF.parents_lt _ _ hp) ih)

/-- First-step inversion for reachability. -/
theorem Reaches.cases_head {s : St} {v x : Nat} (h : Reaches s v x) :
    x = v ∨ ∃ p ∈ (getN s v).op.parents, Reaches s p x := by
  induction h with
  | refl => exact Or.inl rfl
  | step _ hp ih =>
      rcases ih with rfl | ⟨q, hq, hqx⟩
      · exact Or.inr ⟨_, hp, Reaches.refl _⟩
      · exact Or.inr ⟨q, hq, Reaches.step hqx hp⟩

theorem Reaches.of_parent {s : St} {v p x : Nat}
    (hp : p ∈ (getN s v).op.parents) (h : Reaches s p x) : Reaches s v x :=
  Reaches.comp (Reaches.step (Reaches.refl v) hp) h

/-- A parent-closed topological list absorbs everything reachable from its
members. -/
theorem mem_topo_of_reaches {s : St} {topo : List Nat}
    (hclosed : ∀ x ∈ topo, ∀ p ∈ (getN s x).op.parents, p ∈ topo)
    {v x : Nat} (hv : v ∈ topo) (h : Reaches s v x) : x ∈ topo := by
  induction h with
  | refl => exact hv
  | step _ hp ih => exact hclosed _ ih _ hp

/-! ### Correctness of the depth-first topological sort -/

/-- Full postcondition of one `build_topo` call from `v` on an accumulator
`(vis, topo)`, relative to a ghost list `G` of gray nodes (the nodes whose
call is still on the C++ call stack): the call appends to `topo` a block of
previously unvisited nodes, the visited set grows by exactly the nodes
reachable from `v`, visited = topo-members plus gray nodes is preserved, and
the topological list stays parent-closed and duplicate-free. -/
def DfsOk (s : St) (v : Nat) : Prop :=
  ∀ fuel, v < fuel → ∀ vis topo G : List Nat,
    (∀ x, x ∈ vis ↔ x ∈ topo ∨ x ∈ G) →
    (∀ g ∈ G, v < g) →
    (∀ x ∈ topo, ∀ p ∈ (getN s x).op.parents, p ∈ topo) →
    topo.Nodup →
    ∃ Δ : List Nat,
      (buildTopo s fuel v (vis, topo)).2 = topo ++ Δ ∧
      (∀ x ∈ Δ, x ∉ vis) ∧
      (∀ x, x ∈ (buildTopo s fuel v (vis, topo)).1 ↔ x ∈ vis ∨ Reaches s v x) ∧
      (∀ x, x ∈ (buildTopo s fuel v (vis, topo)).1 ↔ x ∈ topo ++ Δ ∨ x ∈ G) ∧
      (∀ x ∈ topo ++ Δ, ∀ p ∈ (getN s x).op.parents, p ∈ topo ++ Δ) ∧
      (topo ++ Δ).Nodup

/-- Postcondition of the fold of `build_topo` over a list of start nodes
(the parents of the gray node `v`). -/
theorem dfsList_ok (s : St) (v : Nat) (IH : ∀ u, u < v → DfsOk s u) :
    ∀ ps : List Nat, (∀ p ∈ ps, p < v) →
    ∀ fuel, v ≤ fuel → ∀ vis topo G : List Nat,
    (∀ x, x ∈ vis ↔ x ∈ topo ∨ x ∈ G) →
    (∀ g ∈ G, ∀ p ∈ ps, p < g) →
    (∀ x ∈ topo, ∀ p ∈ (getN s x).op.parents, p ∈ topo) →
    topo.Nodup →
    ∃ Δ : List Nat,
      (ps.foldl (fun a c => buildTopo s fuel c a) (vis, topo)).2 = topo ++ Δ ∧
      (∀ x ∈ Δ, x ∉ vis) ∧
      (∀ x, x ∈ (ps.foldl (fun a c => buildTopo s fuel c a) (vis, topo)).1 ↔
          x ∈ vis ∨ ∃ p ∈ ps, Reaches s p x) ∧
      (∀ x, x ∈ (ps.foldl (fun a c => buildTopo s fuel c a) (vis, topo)).1 ↔
          x ∈ topo ++ Δ ∨ x ∈ G) ∧
      (∀ x ∈ topo ++ Δ, ∀ p ∈ (getN s x).op.parents, p ∈ topo ++ Δ) ∧
      (topo ++ Δ).Nodup := by
  intro ps
  induction ps with
  | nil =>
      intro _ fuel _ vis topo G hvis hG hclosed hnodup
      exact ⟨[], by simp, by simp, by simp [hvis], by simpa using hvis,
        by simpa using hclosed, by simpa using hnodup⟩
  | cons p ps ih =>
      intro hps fuel hfuel vis topo G hvis hG hclosed hnodup
      have hpv : p < v := hps p (List.mem_cons_self p ps)
      obtain ⟨Δ1, htopo1, hfresh1, hvischar1, hvisG1, hclosed1, hnodup1⟩ :=
        IH p hpv fuel (Nat.lt_of_lt_of_le hpv hfuel) vis topo G hvis
          (fun g hg => hG g hg p (List.mem_cons_self p ps)) hclosed hnodup
      obtain ⟨Δ2, htopo2, hfresh2, hvischar2, hvisG2, hclosed2, hnodup2⟩ :=
        ih (fun q hq => hps q (List.mem_cons.mpr (Or.inr hq))) fuel hfuel
          (buildTopo s fuel p (vis, topo)).1 (topo ++ Δ1) G
          hvisG1 (fun g hg q hq => hG g hg q (List.mem_cons.mpr (Or.inr hq)))
          hclosed1 hnodup1
      have hfold : (p :: ps).foldl (fun a c => buildTopo s fuel c a) (vis, topo) =
          ps.foldl (fun a c => buildTopo s fuel c a)
            ((buildTopo s fuel p (vis, topo)).1, (buildTopo s fuel p (vis, topo)).2) := by
        simp [List.foldl_cons]
      refine ⟨Δ1 ++ Δ2, ?_, ?_, ?_, ?_, ?_, ?_⟩
      · rw [hfold, htopo1, htopo2, List.append_assoc]
      · intro x hx
        rcases List.mem_append.mp hx with hx1 | hx2
        · exact hfresh1 x hx1
        · intro hxvis
          exact hfresh2 x hx2 ((hvischar1 x).mpr (Or.inl hxvis))
      · intro x
        rw [hfold, htopo1]
        constructor
        · intro hx
          rcases (hvischar2 x).mp hx with hx1 | ⟨q, hq, hqx⟩
          · rcases (hvischar1 x).mp hx1 with hxv | hpx
            · exact Or.inl hxv
            · exact Or.inr ⟨p, List.mem_cons_self p ps, hpx⟩
          · exact Or.inr ⟨q, List.mem_cons.mpr (Or.inr hq), hqx⟩
        · intro hx
          rcases hx with hxv | ⟨q, hq, hqx⟩
          · exact (hvischar2 x).mpr (Or.inl ((hvischar1 x).mpr (Or.inl hxv)))
          · rcases List.mem_cons.mp hq with rfl | hq2
            · exact (hvischar2 x).mpr (Or.inl ((hvischar1 x).mpr (Or.inr hqx)))
            · exact (hvischar2 x).mpr (Or.inr ⟨q, hq2, hqx⟩)
      · intro x
        rw [hfold, htopo1, ← List.append_assoc]
        exact hvisG2 x
      · intro x hx p hp
        rw [← List.append_assoc] at hx ⊢
        exact hclosed2 x hx p hp
      · rw [← List.append_assoc]
        exact hnodup2

/-- The DFS of `Value::backward` satisfies its postcondition at every start
node, by strong induction on the node handle: all parents are strictly
smaller, so the recursive calls are covered by the induction hypothesis. -/
theorem dfs_ok (s : St) (hWF : WF s) : ∀ v, DfsOk s v := by
  intro v
  induction v using Nat.strong_induction_on with
  | _ v IH =>
    intro fuel hfuel vis topo G hvis hG hclosed hnodup
    obtain ⟨fuel, rfl⟩ : ∃ f, fuel = f + 1 := ⟨fuel - 1, by omega⟩
    by_cases hvmem : v ∈ vis
    · have hres : buildTopo s (fuel + 1) v (vis, topo) = (vis, topo) := by
        simp [buildTopo, hvmem]
      have hvtopo : v ∈ topo := by
        rcases (hvis v).mp hvmem with h | h
        · exact h
        · exact absurd (hG v h) (Nat.lt_irrefl v)
      refine ⟨[], by simp [hres], by simp, ?_, ?_, by simpa using hclosed,
        by simpa using hnodup⟩
      · intro x
        rw [hres]
        constructor
        · exact fun h => Or.inl h
        · rintro (h | h)
          · exact h
          · exact (hvis x).mpr (Or.inl (mem_topo_of_reaches hclosed hvtopo h))
      · intro x
        rw [hres]
        simpa using hvis x
    · have hres : buildTopo s (fuel + 1) v (vis, topo) =
          (((( getN s v).op.parents).foldl (fun a c => buildTopo s fuel c a)
              (v :: vis, topo)).1,
            (((getN s v).op.parents).foldl (fun a c => buildTopo s fuel c a)
              (v :: vis, topo)).2 ++ [v]) := by
        simp [buildTopo, hvmem]
      have hvnotopo : v ∉ topo := fun h => hvmem ((hvis v).mpr (Or.inl h))
      obtain ⟨Δf, htopoF, hfreshF, hvischarF, hvisGF, hclosedF, hnodupF⟩ :=
        dfsList_ok s v (fun u hu => IH u hu) ((getN s v).op.parents)
          (fun p hp => hWF.parents_lt v p hp) fuel (by omega) (v :: vis) topo
          (v :: G)
          (by
            intro x
            simp only [List.mem_cons, hvis x]
            tauto)
          (by
            intro g hg p hp
            rcases List.mem_cons.mp hg with hgv | hg2
            · subst hgv
              exact hWF.parents_lt g p hp
            · exact Nat.lt_trans (hWF.parents_lt v p hp) (hG g hg2))
          hclosed hnodup
      have hparents_in : ∀ p ∈ (getN s v).op.parents, p ∈ topo ++ Δf := by
        intro p hp
        have hpvis : p ∈ (((getN s v).op.parents).foldl
            (fun a c => buildTopo s fuel c a) (v :: vis, topo)).1 :=
          (hvischarF p).mpr (Or.inr ⟨p, hp, Reaches.refl p⟩)
        rcases (hvisGF p).mp hpvis with h | h
        · exact h
        · exfalso
          rcases List.mem_cons.mp h with hpv | hpg
          · rw [hpv] at hp
            exact Nat.lt_irrefl v (hWF.parents_lt v v hp)
          · exact Nat.lt_irrefl p
              (Nat.lt_trans (hWF.parents_lt v p hp) (hG p hpg))
      have hvnotΔf : v ∉ Δf := fun h => hfreshF v h (List.mem_cons_self v vis)
      refine ⟨Δf ++ [v], ?_, ?_, ?_, ?_, ?_, ?_⟩
      · rw [hres, htopoF, List.append_assoc]
      · intro x hx
        rcases List.mem_append.mp hx with hx1 | hx2
        · exact fun hv => hfreshF x hx1 (List.mem_cons.mpr (Or.inr hv))
        · rw [List.mem_singleton.mp hx2]
          exact hvmem
      · intro x
        rw [hres]
        constructor
        · intro hx
          rcases (hvischarF x).mp hx with hx1 | ⟨q, hq, hqx⟩
          · rcases List.mem_cons.mp hx1 with rfl | hx2
            · exact Or.inr (Reaches.refl x)
            · exact Or.inl hx2
          · exact Or.inr (Reaches.of_parent hq hqx)
        · rintro (hx | hx)
          · exact (hvischarF x).mpr
              (Or.inl (List.mem_cons.mpr (Or.inr hx)))
          · rcases Reaches.cases_head hx with hxv | ⟨q, hq, hqx⟩
            · subst hxv
              exact (hvischarF x).mpr (Or.inl (List.mem_cons_self x vis))
            · exact (hvischarF x).mpr (Or.inr ⟨q, hq, hqx⟩)
      · intro x
        rw [hres]
        have h4 := hvisGF x
        simp only [List.mem_append, List.mem_cons, List.mem_singleton] at h4 ⊢
        rw [h4]
        tauto
      · intro x hx p hp
        rw [← List.append_assoc] at hx ⊢
        rcases List.mem_append.mp hx with hx1 | hx2
        · exact List.mem_append.mpr (Or.inl (hclosedF x hx1 p hp))
        · rw [List.mem_singleton.mp hx2] at hp
          exact List.mem_append.mpr (Or.inl (hparents_in p hp))
      · rw [← List.append_assoc, List.nodup_append]
        refine ⟨hnodupF, List.nodup_singleton v, ?_⟩
        intro x hx hmem
        rw [List.mem_singleton] at hmem
        subst hmem
        rcases List.mem_append.mp hx with hx1 | hx2
        · exact hvnotopo hx1
        · exact hvnotΔf hx2

/-- On a well-formed arena, with the fuel `s.length` that `Value::backward`
passes, the topological list contains exactly the nodes reachable from the
root, each exactly once. -/
theorem topoOf_spec (s : St) (root : Nat) (hWF : WF s) (hroot : root < s.length) :
    (topoOf s root).Nodup ∧ ∀ v, v ∈ topoOf s root ↔ Reaches s root v := by
  obtain ⟨Δ, htopo, hfresh, hvischar, hvisG, hclosed, hnodup⟩ :=
    dfs_ok s hWF root s.length hroot [] [] [] (by simp) (by simp) (by simp)
      List.nodup_nil
  constructor
  · unfold topoOf
    rw [htopo]
    simpa using hnodup
  · intro v
    unfold topoOf
    rw [htopo]
    have h1 := hvischar v
    have h2 := hvisG v
    constructor
    · intro hv
      rcases h1.mp (h2.mpr (Or.inl hv)) with h | h
      · simp at h
      · exact h
    · intro hr
      rcases h2.mp (h1.mpr (Or.inr hr)) with h | h
      · exact h
      · simp at h

/-- C5. A single call to `backward(root)` on a well-formed graph invokes
`local_backward` exactly once for every node reachable from `root` (by
identity) and never for any other node: the invocation sequence (the
reversed topological list that `backward` walks) is duplicate-free, its
members are exactly the reachable nodes, and each reachable node occurs in
it with count 1 — hence exactly N invocations for N distinct reachable
nodes, regardless of edge multiplicity. -/
theorem C5_backward_invokes_each_reachable_node_once (s : St) (root : Nat)
    (hWF : WF s) (hroot : root < s.length) :
    ((topoOf s root).reverse.Nodup ∧
      (∀ v, v ∈ (topoOf s root).reverse ↔ Reaches s root v)) ∧
    (∀ v, Reaches s root v → ((topoOf s root).reverse).count v = 1) ∧
    (∀ v, ¬ Reaches s root v → ((topoOf s root).reverse).count v = 0) := by
  obtain ⟨hnodup, hmem⟩ := topoOf_spec s root hWF hroot
  have hnodupR : (topoOf s root).reverse.Nodup := List.nodup_reverse.mpr hnodup
  have hmemR : ∀ v, v ∈ (topoOf s root).reverse ↔ Reaches s root v := by
    intro v
    rw [List.mem_reverse]
    exact hmem v
  refine ⟨⟨hnodupR, hmemR⟩, ?_, ?_⟩
  · intro v hv
    exact List.count_eq_one_of_mem hnodupR ((hmemR v).mpr hv)
  · intro v hv
    exact List.count_eq_zero.mpr (fun h => hv ((hmemR v).mp h))

/-- The diamond graph as `test_grad` builds it, before calling `backward`:
leaves 1, 2, 3, 4, then `add 0 1` (data 3), `mul 2 3` (data 12) and the
root `add 4 5` (data 15). -/
def diamondGraph : St :=
  [⟨1, 0, .leaf⟩, ⟨2, 0, .leaf⟩, ⟨3, 0, .leaf⟩, ⟨4, 0, .leaf⟩,
    ⟨3, 0, .add 0 1⟩, ⟨12, 0, .mul 2 3⟩, ⟨15, 0, .add 4 5⟩]

/-- Closed instance of `C5_backward_invokes_each_reachable_node_once` on the
diamond graph rooted at node 6. -/
theorem C5_witness :
    (WF diamondGraph ∧ 6 < diamondGraph.length) ∧
    (((topoOf diamondGraph 6).reverse.Nodup ∧
      (∀ v, v ∈ (topoOf diamondGraph 6).reverse ↔ Reaches diamondGraph 6 v)) ∧
    (∀ v, Reaches diamondGraph 6 v →
        ((topoOf diamondGraph 6).reverse).count v = 1) ∧
    (∀ v, ¬ Reaches diamondGraph 6 v →
        ((topoOf diamondGraph 6).reverse).count v = 0)) :=
  ⟨⟨by decide, by decide⟩,
    C5_backward_invokes_each_reachable_node_once diamondGraph 6 (by decide)
      (by decide)⟩

/-! ### C10: the root's gradient after `backward` -/

theorem runBackwardStep_data (s : St) (o k : Nat) :
    (getN (runBackwardStep s o) k).data = (getN s k).data := by
  rcases hop : (getN s o).op with _ | ⟨a, b⟩ | ⟨a, b⟩
  · rw [runBackwardStep_leaf s o hop]
  · rw [runBackwardStep_add s o a b hop, getN_addGrad_data, getN_addGrad_data]
  · rw [runBackwardStep_mul s o a b hop, getN_addGrad_data, getN_addGrad_data]

theorem runBackwardStep_op (s : St) (o k : Nat) :
    (getN (runBackwardStep s o) k).op = (getN s k).op := by
  rcases hop : (getN s o).op with _ | ⟨a, b⟩ | ⟨a, b⟩
  · rw [runBackwardStep_leaf s o hop]
  · rw [runBackwardStep_add s o a b hop, getN_addGrad_op, getN_addGrad_op]
  · rw [runBackwardStep_mul s o a b hop, getN_addGrad_op, getN_addGrad_op]

theorem runBackwardStep_grad_of_not_parent (s : St) (o k : Nat)
    (h : k ∉ (getN s o).op.parents) :
    (getN (runBackwardStep s o) k).grad = (getN s k).grad := by
  rcases hop : (getN s o).op with _ | ⟨a, b⟩ | ⟨a, b⟩
  · rw [runBackwardStep_leaf s o hop]
  · rw [hop] at h
    have hka : k ≠ a := fun hk => h (hk ▸ (mem_parents_add a b a).mpr (Or.inl rfl))
    have hkb : k ≠ b := fun hk => h (hk ▸ (mem_parents_add a b b).mpr (Or.inr rfl))
    rw [runBackwardStep_add s o a b hop, getN_addGrad_ne _ _ _ _ hkb,
      getN_addGrad_ne _ _ _ _ hka]
  · rw [hop] at h
    have hka : k ≠ a := fun hk => h (hk ▸ (mem_parents_mul a b a).mpr (Or.inl rfl))
    have hkb : k ≠ b := fun hk => h (hk ▸ (mem_parents_mul a b b).mpr (Or.inr rfl))
    rw [runBackwardStep_mul s o a b hop, getN_addGrad_ne _ _ _ _ hkb,
      getN_addGrad_ne _ _ _ _ hka]

/-- Walking any list of backward steps never changes the gradient of a node
that is a parent of none of the walked nodes. -/
theorem walk_grad_of_not_parent (s : St) (l : List Nat) (k : Nat)
    (h : ∀ o ∈ l, k ∉ (getN s o).op.parents) :
    (getN (l.foldl runBackwardStep s) k).grad = (getN s k).grad := by
  induction l generalizing s with
  | nil => rfl
  | cons o l ih =>
      rw [List.foldl_cons]
      have h2 : ∀ o2 ∈ l, k ∉ (getN (runBackwardStep s o) o2).op.parents := by
        intro o2 ho2
        rw [runBackwardStep_op]
        exact h o2 (List.mem_cons.mpr (Or.inr ho2))
      rw [ih (runBackwardStep s o) h2,
        runBackwardStep_grad_of_not_parent s o k (h o (List.mem_cons_self o l))]

/-- C10. After `backward(root)` the root's own gradient is exactly 1,
whatever it was before the call: the seed `grad = 1` is an overwriting
assignment, and on a well-formed graph no walked node has the root among
its parents (parents have strictly smaller handles than any node reachable
from the root), so no accumulation ever reaches the root. -/
theorem C10_root_gradient_is_one (s : St) (root : Nat) (hWF : WF s)
    (hroot : root < s.length) :
    (getN (Value.backward s root root) root).grad = 1 := by
  have hspec := topoOf_spec s root hWF hroot
  show (getN ((topoOf s root).reverse.foldl runBackwardStep (setGrad s root 1))
      root).grad = 1
  rw [walk_grad_of_not_parent (setGrad s root 1) (topoOf s root).reverse root ?_,
    getN_setGrad_self _ _ _ hroot]
  intro o ho
  rw [getN_setGrad_op]
  intro hmem
  have h1 : o ∈ topoOf s root := List.mem_reverse.mp ho
  have h2 : Reaches s root o := (hspec.2 o).mp h1
  have h3 : o ≤ root := Reaches.le hWF h2
  exact Nat.lt_irrefl root (Nat.lt_of_lt_of_le (hWF.parents_lt o root hmem) h3)

/-- A one-node arena whose single leaf already carries the stale gradient 5,
to exhibit that the seed overwrites rather than accumulates. -/
def seededLeaf : St := [⟨2, 5, .leaf⟩]

/-- Closed instance of `C10_root_gradient_is_one`: the root's prior gradient
5 is overwritten to exactly 1, not accumulated to 6. -/
theorem C10_witness :
    (WF seededLeaf ∧ 0 < seededLeaf.length) ∧
    (getN (Value.backward seededLeaf 0 0) 0).grad = 1 :=
  ⟨⟨by decide, by decide⟩,
    C10_root_gradient_is_one seededLeaf 0 (by decide) (by decide)⟩

/-! ### C4: accumulation across two `backward` calls -/

/-- The diamond state after a second `backward(g)` with no intervening
`zero_grad` (the first call is already part of `diamondState`). -/
def diamondTwice : St := Value.backward diamondState 6 6

/-- C4 counterexample. In the diamond graph, leaf `a` has gradient 1 after
one `backward(g)` and gradient 3 — not 2 — after a second `backward(g)`
without `zero_grad`: the second pass propagates the accumulated
intermediate gradients (e.g. `e.grad = 2`), so leaf gradients do not simply
double. -/
theorem C4_counterexample :
    (getN diamondState 0).grad = 1 ∧
    (getN diamondTwice 0).grad = 3 ∧
    (getN diamondTwice 0).grad ≠ 2 * (getN diamondState 0).grad := by
  norm_num [diamondTwice, diamondState, mkShared, Value.add, Value.multiply,
    Value.backward, topoOf, buildTopo, Op.parents, getN, setGrad, addGrad,
    runBackwardStep, defaultValue]

/-- A two-leaf graph `root = add(a, b)` with leaf data `da`, `db`, before
any backward call. -/
def pairSumState (da db : ℚ) : St :=
  (Value.add [⟨da, 0, .leaf⟩, ⟨db, 0, .leaf⟩] 0 1).2

/-- C4 amended. A second `backward(root)` without `zero_grad` accumulates
on top of the gradients left by the first call — nothing is zeroed, though
the root's gradient is re-seeded to 1 — with the new contributions computed
from the already-accumulated gradients of the intermediate nodes.  Leaf
gradients therefore double exactly when every path from the root to the
leaf has length one: in `root = add(a, b)` the leaves go from 1 to 2 (twice
their value after one call) for any leaf data, whereas in the diamond graph
the second call drives the leaves to 3, 3, 12, 9 rather than 2, 2, 8, 6. -/
theorem C4_amended_accumulation (da db : ℚ) :
    ((getN (Value.backward (pairSumState da db) 2 2) 0).grad = 1 ∧
     (getN (Value.backward (pairSumState da db) 2 2) 1).grad = 1 ∧
     (getN (Value.backward (Value.backward (pairSumState da db) 2 2) 2 2) 0).grad
        = 2 ∧
     (getN (Value.backward (Value.backward (pairSumState da db) 2 2) 2 2) 1).grad
        = 2) ∧
    ((getN diamondTwice 0).grad = 3 ∧ (getN diamondTwice 1).grad = 3 ∧
     (getN diamondTwice 2).grad = 12 ∧ (getN diamondTwice 3).grad = 9) := by
  constructor
  · norm_num [pairSumState, mkShared, Value.add, Value.multiply, Value.backward,
      topoOf, buildTopo, Op.parents, getN, setGrad, addGrad, runBackwardStep,
      defaultValue]
  · norm_num [diamondTwice, diamondState, mkShared, Value.add, Value.multiply,
      Value.backward, topoOf, buildTopo, Op.parents, getN, setGrad, addGrad,
      runBackwardStep, defaultValue]

/-! ### The module hierarchy: `Neuron`, `Layer`, `MLP` -/

/-- A `Neuron` of `value.cpp`: weight handles `w`, bias handle `b`, and the
declared-but-unused nonlinearity flag. -/
structure Neuron where
  w : List Nat
  b : Nat
  nonlin : Bool
  deriving Repr

/-- The constructor loop `for (i < n) w.push_back(make_shared<Value>(d))`,
returning the handles in push order. -/
def pushLeaves (s : St) (d : ℚ) : Nat → List Nat × St
  | 0 => ([], s)
  | n + 1 =>
      let (i, s1) := mkShared s d
      let (ids, s2) := pushLeaves s1 d n
      (i :: ids, s2)

/-- `Neuron(nin, nonlin)`: `nin` weight leaves initialized to 1.0 and one
bias leaf initialized to 0.0. -/
def Neuron.make (s : St) (nin : Nat) (nonlin : Bool) : Neuron × St :=
  let (ws, s1) := pushLeaves s 1 nin
  let (bi, s2) := mkShared s1 0
  (⟨ws, bi, nonlin⟩, s2)

/-- One iteration of the evaluation loop of `Neuron::operator()`:
`act = Value::add(act, Value::multiply(w[i], x[i]))`.  `getD _ 0` totalizes
the unchecked C++ `operator[]`. -/
def neuronStep (nr : Neuron) (x : List Nat) (acc : Nat × St) (i : Nat) :
    Nat × St :=
  let (m, s1) := Value.multiply acc.2 (nr.w.getD i 0) (x.getD i 0)
  Value.add s1 acc.1 m

/-- `Neuron::operator()(x)`: `act = b`, then the loop over `i < x.size()`
(note: bounded by the input length, with no shape check against `w.size()`),
then `return nonlin ? act : act;` — both branches return `act` unchanged. -/
def Neuron.call (s : St) (nr : Neuron) (x : List Nat) : Nat × St :=
  let r := (List.range x.length).foldl (neuronStep nr x) (nr.b, s)
  (cond nr.nonlin r.1 r.1, r.2)

/-- `Neuron::parameters()`: the weights in order, then the bias. -/
def Neuron.parameters (nr : Neuron) : List Nat := nr.w ++ [nr.b]

/-- A `Layer` of `value.cpp`: its neurons in declaration order. -/
structure Layer where
  neurons : List Neuron
  deriving Repr

/-- The constructor loop of `Layer::Layer`. -/
def pushNeurons (s : St) (nin : Nat) (nonlin : Bool) : Nat → List Neuron × St
  | 0 => ([], s)
  | n + 1 =>
      let (nr, s1) := Neuron.make s nin nonlin
      let (rest, s2) := pushNeurons s1 nin nonlin n
      (nr :: rest, s2)

/-- `Layer(nin, nout, nonlin)`. -/
def Layer.make (s : St) (nin nout : Nat) (nonlin : Bool) : Layer × St :=
  let (ns, s1) := pushNeurons s nin nonlin nout
  (⟨ns⟩, s1)

/-- One iteration of `Layer::operator()`: apply the next neuron to the
shared input and push its output handle. -/
def layerStep (x : List Nat) (acc : List Nat × St) (nr : Neuron) :
    List Nat × St :=
  let (o, s1) := Neuron.call acc.2 nr x
  (acc.1 ++ [o], s1)

/-- `Layer::operator()(x)`: each neuron applied to the same input, outputs
collected in neuron order. -/
def Layer.call (s : St) (l : Layer) (x : List Nat) : List Nat × St :=
  l.neurons.foldl (layerStep x) ([], s)

/-- `Layer::parameters()`: concatenation of the neurons' parameters in
declaration order. -/
def Layer.parameters (l : Layer) : List Nat :=
  l.neurons.foldl (fun out nr => out ++ nr.parameters) []

/-- An `MLP` of `value.cpp`: its layers in order. -/
structure MLP where
  layers : List Layer
  deriving Repr

/-- `MLP(nin, nouts)`: layer sizes are consecutive pairs of `nin :: nouts`;
the last layer gets `nonlin = false` (`i != nouts.size()-1`). -/
def MLP.make (s : St) (nin : Nat) (nouts : List Nat) : MLP × St :=
  let sz := nin :: nouts
  let r := (List.range nouts.length).foldl
    (fun (acc : List Layer × St) i =>
      let (l, s1) := Layer.make acc.2 (sz.getD i 0) (sz.getD (i + 1) 0)
        (decide (i ≠ nouts.length - 1))
      (acc.1 ++ [l], s1)) ([], s)
  (⟨r.1⟩, r.2)

/-- `MLP::operator()(x)`: thread the vector through the layers in order. -/
def MLP.call (s : St) (m : MLP) (x : List Nat) : List Nat × St :=
  m.layers.foldl (fun (acc : List Nat × St) l => Layer.call acc.2 l acc.1) (x, s)

/-- `MLP::parameters()`: concatenation of the layers' parameters in order. -/
def MLP.parameters (m : MLP) : List Nat :=
  m.layers.foldl (fun out l => out ++ l.parameters) []

set_option maxRecDepth 100000 in
/-- C6. `MLP(2, [16, 16, 1]).parameters()` is exactly the list of the 337
parameter handles in creation order — layer by layer, neuron by neuron,
each neuron's weights then its bias — so the count is
`2*16 + 16*16 + 16*1 + 16 + 16 + 1 = 337`, the handles are pairwise
distinct, and the order is deterministic (creation order `0, 1, ..., 336`
when built on an empty arena). -/
theorem C6_mlp_parameter_count :
    (MLP.make [] 2 [16, 16, 1]).1.parameters =
      List.range (2 * 16 + 16 * 16 + 16 * 1 + 16 + 16 + 1) ∧
    (MLP.make [] 2 [16, 16, 1]).1.parameters.length = 337 ∧
    (MLP.make [] 2 [16, 16, 1]).1.parameters.Nodup := by
  have h : (MLP.make [] 2 [16, 16, 1]).1.parameters =
      List.range (2 * 16 + 16 * 16 + 16 * 1 + 16 + 16 + 1) := by decide
  refine ⟨h, ?_, ?_⟩
  · rw [h, List.length_range]
  · rw [h]
    exact List.nodup_range _

/-! ### State extension and the neuron evaluation loop -/

/-- `Ext s t`: `t` extends `s` by appended nodes only.  Every constructor in
`value.cpp` only ever appends fresh nodes to the arena. -/
def Ext (s t : St) : Prop := ∃ u, t = s ++ u

theorem Ext.refl (s : St) : Ext s s := ⟨[], by simp⟩

theorem Ext.trans {s t u : St} (h1 : Ext s t) (h2 : Ext t u) : Ext s u := by
  obtain ⟨a, rfl⟩ := h1
  obtain ⟨b, rfl⟩ := h2
  exact ⟨a ++ b, by simp⟩

theorem Ext.length_le {s t : St} (h : Ext s t) : s.length ≤ t.length := by
  obtain ⟨a, rfl⟩ := h
  simp

theorem Ext.getN_eq {s t : St} (h : Ext s t) {i : Nat} (hi : i < s.length) :
    getN t i = getN s i := by
  obtain ⟨a, rfl⟩ := h
  exact getN_append_lt s a i hi

theorem ext_mkShared (s : St) (d : ℚ) : Ext s (mkShared s d).2 := ⟨_, rfl⟩

theorem ext_add (s : St) (a b : Nat) : Ext s (Value.add s a b).2 := ⟨_, rfl⟩

theorem ext_multiply (s : St) (a b : Nat) : Ext s (Value.multiply s a b).2 :=
  ⟨_, rfl⟩

theorem getN_append_mid (s t : St) (i : Nat) (h1 : s.length ≤ i) :
    getN (s ++ t) i = getN t (i - s.length) := by
  unfold getN
  rw [List.getD_append_right s t defaultValue i h1]

theorem getD_mem_of_lt (l : List Nat) (i d : Nat) (h : i < l.length) :
    l.getD i d ∈ l := by
  induction l generalizing i with
  | nil => simp at h
  | cons a l ih =>
      cases i with
      | zero => exact List.mem_cons_self a l
      | succ i =>
          exact List.mem_cons.mpr (Or.inr (ih i (by simpa using h)))

theorem getN_replicate (v : Value) (n j : Nat) (h : j < n) :
    getN (List.replicate n v) j = v := by
  induction n generalizing j with
  | zero => omega
  | succ n ih =>
      cases j with
      | zero => rfl
      | succ j => exact ih j (by omega)

/-- Invariant of the evaluation loop of `Neuron::operator()`: after `k`
iterations the accumulator handle is valid in an arena extended by `2k`
nodes, and its data is the bias plus the partial dot product of the first
`k` coordinates. -/
theorem neuron_loop_spec (s : St) (nr : Neuron) (x : List Nat)
    (hb : nr.b < s.length)
    (hw : ∀ i, i < x.length → nr.w.getD i 0 < s.length)
    (hx : ∀ i, i < x.length → x.getD i 0 < s.length) :
    ∀ k, k ≤ x.length →
      Ext s ((List.range k).foldl (neuronStep nr x) (nr.b, s)).2 ∧
      ((List.range k).foldl (neuronStep nr x) (nr.b, s)).2.length =
        s.length + 2 * k ∧
      ((List.range k).foldl (neuronStep nr x) (nr.b, s)).1 <
        ((List.range k).foldl (neuronStep nr x) (nr.b, s)).2.length ∧
      (getN ((List.range k).foldl (neuronStep nr x) (nr.b, s)).2
          ((List.range k).foldl (neuronStep nr x) (nr.b, s)).1).data =
        (getN s nr.b).data +
          ∑ i in Finset.range k,
            (getN s (nr.w.getD i 0)).data * (getN s (x.getD i 0)).data := by
  intro k
  induction k with
  | zero =>
      intro _
      exact ⟨Ext.refl s, by simp, hb, by simp⟩
  | succ k ih =>
      intro hk
      obtain ⟨hext, hlen, hact, hdata⟩ := ih (Nat.le_of_succ_le hk)
      have hkx : k < x.length := hk
      rw [List.range_succ, List.foldl_append, List.foldl_cons, List.foldl_nil]
      set acc := (List.range k).foldl (neuronStep nr x) (nr.b, s) with hacc
      have hres : neuronStep nr x acc k =
          Value.add (Value.multiply acc.2 (nr.w.getD k 0) (x.getD k 0)).2 acc.1
            (Value.multiply acc.2 (nr.w.getD k 0) (x.getD k 0)).1 := rfl
      rw [hres]
      have hmfst : (Value.multiply acc.2 (nr.w.getD k 0) (x.getD k 0)).1 =
          acc.2.length := rfl
      set s1 := (Value.multiply acc.2 (nr.w.getD k 0) (x.getD k 0)).2 with hs1
      have hs1len : s1.length = acc.2.length + 1 := by
        rw [hs1, multiply_snd]
        simp
      have hExt1 : Ext acc.2 s1 := ext_multiply _ _ _
      have hmul : (getN s1 acc.2.length).data =
          (getN s (nr.w.getD k 0)).data * (getN s (x.getD k 0)).data := by
        rw [hs1, multiply_snd, getN_append_self]
        dsimp only
        rw [hext.getN_eq (hw k hkx), hext.getN_eq (hx k hkx)]
      have hactd : (getN s1 acc.1).data = (getN acc.2 acc.1).data := by
        rw [hs1, multiply_snd, getN_append_lt _ _ _ hact]
      refine ⟨?_, ?_, ?_, ?_⟩
      · exact (hext.trans hExt1).trans (ext_add _ _ _)
      · rw [add_snd]
        simp only [List.length_append, List.length_cons, List.length_nil, hs1len,
          hlen]
        omega
      · rw [add_snd]
        show s1.length < (s1 ++ [_]).length
        simp
      · have hafst : (Value.add s1 acc.1
            (Value.multiply acc.2 (nr.w.getD k 0) (x.getD k 0)).1).1 =
            s1.length := rfl
        rw [hafst, add_snd, getN_append_self]
        dsimp only
        rw [hmfst, hmul, hactd, hdata, Finset.sum_range_succ, add_assoc]

/-- Value semantics of one `Neuron::operator()` call, for both flag values:
the returned node's data is the bias plus the dot product over the first
`x.length` coordinates, and the arena grows by exactly `2 * x.length`
nodes. -/
theorem neuron_call_value (t : St) (nr : Neuron) (x : List Nat)
    (hb : nr.b < t.length)
    (hw : ∀ i, i < x.length → nr.w.getD i 0 < t.length)
    (hx : ∀ i, i < x.length → x.getD i 0 < t.length) :
    (getN (Neuron.call t nr x).2 (Neuron.call t nr x).1).data =
      (getN t nr.b).data +
        ∑ i in Finset.range x.length,
          (getN t (nr.w.getD i 0)).data * (getN t (x.getD i 0)).data ∧
    (Neuron.call t nr x).2.length = t.length + 2 * x.length := by
  obtain ⟨hext, hlen, hact, hdata⟩ :=
    neuron_loop_spec t nr x hb hw hx x.length (Nat.le_refl _)
  unfold Neuron.call
  simp only [Bool.cond_self]
  exact ⟨hdata, hlen⟩

/-- The constructor loop pushes `n` fresh leaves: the handles are the `n`
consecutive indices starting at the current arena size. -/
theorem pushLeaves_spec (d : ℚ) :
    ∀ (n : Nat) (s : St),
      pushLeaves s d n =
        (List.range' s.length n, s ++ List.replicate n ⟨d, 0, .leaf⟩) := by
  intro n
  induction n with
  | zero =>
      intro s
      simp [pushLeaves]
  | succ n ih =>
      intro s
      show (s.length :: (pushLeaves (s ++ [(⟨d, 0, .leaf⟩ : Value)]) d n).1,
          (pushLeaves (s ++ [(⟨d, 0, .leaf⟩ : Value)]) d n).2) = _
      rw [ih]
      refine Prod.ext ?_ ?_
      · show s.length :: List.range' (s ++ [(⟨d, 0, .leaf⟩ : Value)]).length n =
          List.range' s.length (n + 1)
        have h1 : (s ++ [(⟨d, 0, .leaf⟩ : Value)] : St).length = s.length + 1 := by
          simp
        rw [h1]
        rfl
      · show (s ++ [(⟨d, 0, .leaf⟩ : Value)]) ++
            List.replicate n (⟨d, 0, .leaf⟩ : Value) =
          s ++ List.replicate (n + 1) (⟨d, 0, .leaf⟩ : Value)
        rw [List.append_assoc, List.singleton_append, ← List.replicate_succ]

/-- Explicit form of `Neuron(nin, nonlin)`: the weights are the next `nin`
handles (each a leaf with data 1), the bias the handle after them (a leaf
with data 0). -/
theorem Neuron.make_spec (s : St) (nin : Nat) (nl : Bool) :
    Neuron.make s nin nl =
      (⟨List.range' s.length nin, s.length + nin, nl⟩,
        s ++ List.replicate nin ⟨1, 0, .leaf⟩ ++ [⟨0, 0, .leaf⟩]) := by
  unfold Neuron.make
  rw [pushLeaves_spec]
  simp [mkShared]

/-! ### C7: neuron construction and evaluation -/

/-- C7. `Neuron(nin)` constructs `nin` weight leaves with data 1.0 and one
bias leaf with data 0.0.  Evaluating it on an input `x` of length `nin`
(handles of nodes already in the arena) returns a single node whose data is
`b.data + Σ_{i<nin} w[i].data * x[i].data`; and the `nonlin` flag is
completely ignored by evaluation (`nonlin ? act : act`), so both flag
values produce identical results. -/
theorem C7_neuron_construction_and_eval (s : St) (nin : Nat) (nl : Bool)
    (x : List Nat) (hlen : x.length = nin) (hx : ∀ id ∈ x, id < s.length) :
    (Neuron.make s nin nl).1.w.length = nin ∧
    (∀ id ∈ (Neuron.make s nin nl).1.w,
      getN (Neuron.make s nin nl).2 id = ⟨1, 0, .leaf⟩) ∧
    getN (Neuron.make s nin nl).2 (Neuron.make s nin nl).1.b = ⟨0, 0, .leaf⟩ ∧
    (getN (Neuron.call (Neuron.make s nin nl).2 (Neuron.make s nin nl).1 x).2
        (Neuron.call (Neuron.make s nin nl).2 (Neuron.make s nin nl).1 x).1).data
      = (getN (Neuron.make s nin nl).2 (Neuron.make s nin nl).1.b).data +
        ∑ i in Finset.range nin,
          (getN (Neuron.make s nin nl).2
              ((Neuron.make s nin nl).1.w.getD i 0)).data *
            (getN (Neuron.make s nin nl).2 (x.getD i 0)).data ∧
    (∀ (t : St) (w2 : List Nat) (b2 : Nat) (y : List Nat),
      Neuron.call t ⟨w2, b2, true⟩ y = Neuron.call t ⟨w2, b2, false⟩ y) := by
  rw [Neuron.make_spec]
  dsimp only
  have hslen : (s ++ List.replicate nin (⟨1, 0, .leaf⟩ : Value) ++
      [(⟨0, 0, .leaf⟩ : Value)]).length = s.length + nin + 1 := by
    simp
    omega
  have hwmem : ∀ id ∈ List.range' s.length nin,
      getN (s ++ List.replicate nin ⟨1, 0, .leaf⟩ ++ [⟨0, 0, .leaf⟩]) id =
        ⟨1, 0, .leaf⟩ := by
    intro id hid
    obtain ⟨h1, h2⟩ := List.mem_range'_1.mp hid
    have h3 : id < (s ++ List.replicate nin (⟨1, 0, .leaf⟩ : Value)).length := by
      simp
      omega
    rw [getN_append_lt _ _ _ h3, getN_append_mid s _ id h1,
      getN_replicate _ _ _ (by omega)]
  have hbias : getN (s ++ List.replicate nin ⟨1, 0, .leaf⟩ ++ [⟨0, 0, .leaf⟩])
      (s.length + nin) = ⟨0, 0, .leaf⟩ := by
    have h1 : (s ++ List.replicate nin (⟨1, 0, .leaf⟩ : Value)).length =
        s.length + nin := by simp
    rw [← h1, getN_append_self]
  refine ⟨List.length_range' _ _ _, hwmem, hbias, ?_, ?_⟩
  · have hval := neuron_call_value
      (s ++ List.replicate nin ⟨1, 0, .leaf⟩ ++ [⟨0, 0, .leaf⟩])
      ⟨List.range' s.length nin, s.length + nin, nl⟩ x
      (by dsimp only; rw [hslen]; omega)
      (by
        intro i hi
        dsimp only
        have hmem : (List.range' s.length nin).getD i 0 ∈
            List.range' s.length nin :=
          getD_mem_of_lt _ _ _ (by rw [List.length_range']; omega)
        obtain ⟨h1, h2⟩ := List.mem_range'_1.mp hmem
        omega)
      (by
        intro i hi
        have hmem : x.getD i 0 ∈ x := getD_mem_of_lt _ _ _ hi
        have := hx _ hmem
        omega)
    rw [hval.1, hlen]
  · intro t w2 b2 y
    rfl

/-! ### C3: no shape check — silent truncation -/

/-- The arena after `Neuron(2)` on an empty arena (weights 0 and 1, bias 2)
followed by one more leaf with data 5 (handle 3), the mismatched input. -/
def mismatchState : St := (mkShared (Neuron.make [] 2 true).2 5).2

/-- C3 counterexample. A `Neuron` with `nin = 2` evaluated on the length-1
input `[3]` does not fail fast — `Neuron::operator()` contains no length
check at all — but runs to completion, silently truncating: it appends
exactly the two nodes of one loop iteration and returns a node with data
`w[0]·x[0] + b = 1·5 + 0 = 5`, the second weight never being read. -/
theorem C3_counterexample :
    (Neuron.make [] 2 true).1.w.length = 2 ∧
    ([3] : List Nat).length ≠ 2 ∧
    (getN (Neuron.call mismatchState (Neuron.make [] 2 true).1 [3]).2
        (Neuron.call mismatchState (Neuron.make [] 2 true).1 [3]).1).data = 5 ∧
    (Neuron.call mismatchState (Neuron.make [] 2 true).1 [3]).2.length =
      mismatchState.length + 2 := by
  refine ⟨by decide, by decide, ?_, ?_⟩
  · norm_num [mismatchState, Neuron.make, pushLeaves, Neuron.call, neuronStep,
      mkShared, Value.add, Value.multiply, getN, defaultValue,
      List.range_succ]
  · norm_num [mismatchState, Neuron.make, pushLeaves, Neuron.call, neuronStep,
      mkShared, Value.add, Value.multiply, getN, defaultValue,
      List.range_succ]

/-- C3 amended. Evaluating a `Neuron` on an input whose length differs from
`nin` does not fail fast and raises no error: no shape validation exists.
With `x` shorter than `nin`, the loop silently truncates to the first
`x.length` weights — the result is `b + Σ_{i<x.length} w[i]·x[i]`, two new
nodes per iteration, the remaining weights unread.  (With `x` longer than
`nin`, the C++ `w[i]` read is out of bounds: undefined behaviour, outside
the embedding, and still not a descriptive error.)  The same applies to
`Layer`, which just maps its neurons over the same input. -/
theorem C3_amended_silent_truncation (t : St) (nr : Neuron) (x : List Nat)
    (hshort : x.length < nr.w.length) (hb : nr.b < t.length)
    (hw : ∀ id ∈ nr.w, id < t.length) (hx : ∀ id ∈ x, id < t.length) :
    (getN (Neuron.call t nr x).2 (Neuron.call t nr x).1).data =
      (getN t nr.b).data +
        ∑ i in Finset.range x.length,
          (getN t (nr.w.getD i 0)).data * (getN t (x.getD i 0)).data ∧
    (Neuron.call t nr x).2.length = t.length + 2 * x.length := by
  refine neuron_call_value t nr x hb ?_ ?_
  · intro i hi
    exact hw _ (getD_mem_of_lt _ _ _ (by omega))
  · intro i hi
    exact hx _ (getD_mem_of_lt _ _ _ hi)

/-- Closed instance of `C3_amended_silent_truncation` on `mismatchState`:
the neuron has `nin = 2`, the input has length 1. -/
theorem C3_amended_witness :
    ((([3] : List Nat).length < (Neuron.make [] 2 true).1.w.length) ∧
      (Neuron.make [] 2 true).1.b < mismatchState.length ∧
      (∀ id ∈ (Neuron.make [] 2 true).1.w, id < mismatchState.length) ∧
      (∀ id ∈ ([3] : List Nat), id < mismatchState.length)) ∧
    ((getN (Neuron.call mismatchState (Neuron.make [] 2 true).1 [3]).2
        (Neuron.call mismatchState (Neuron.make [] 2 true).1 [3]).1).data =
      (getN mismatchState (Neuron.make [] 2 true).1.b).data +
        ∑ i in Finset.range ([3] : List Nat).length,
          (getN mismatchState ((Neuron.make [] 2 true).1.w.getD i 0)).data *
            (getN mismatchState (([3] : List Nat).getD i 0)).data ∧
    (Neuron.call mismatchState (Neuron.make [] 2 true).1 [3]).2.length =
      mismatchState.length + 2 * ([3] : List Nat).length) :=
  ⟨⟨by decide, by decide, by decide, by decide⟩,
    C3_amended_silent_truncation mismatchState (Neuron.make [] 2 true).1 [3]
      (by decide) (by decide) (by decide) (by decide)⟩

/-- Two pre-existing input leaves (data 5 and 7) followed by `Neuron(2)`:
the setting of the `C7_neuron_construction_and_eval` witness. -/
def twoInputState : St := [⟨5, 0, .leaf⟩, ⟨7, 0, .leaf⟩]

/-- Closed instance of `C7_neuron_construction_and_eval` with `nin = 2` on
inputs 0 and 1. -/
theorem C7_witness :
    ((([0, 1] : List Nat).length = 2) ∧
      (∀ id ∈ ([0, 1] : List Nat), id < twoInputState.length)) ∧
    ((Neuron.make twoInputState 2 true).1.w.length = 2 ∧
    (∀ id ∈ (Neuron.make twoInputState 2 true).1.w,
      getN (Neuron.make twoInputState 2 true).2 id = ⟨1, 0, .leaf⟩) ∧
    getN (Neuron.make twoInputState 2 true).2
        (Neuron.make twoInputState 2 true).1.b = ⟨0, 0, .leaf⟩ ∧
    (getN (Neuron.call (Neuron.make twoInputState 2 true).2
          (Neuron.make twoInputState 2 true).1 [0, 1]).2
        (Neuron.call (Neuron.make twoInputState 2 true).2
          (Neuron.make twoInputState 2 true).1 [0, 1]).1).data
      = (getN (Neuron.make twoInputState 2 true).2
            (Neuron.make twoInputState 2 true).1.b).data +
        ∑ i in Finset.range 2,
          (getN (Neuron.make twoInputState 2 true).2
              ((Neuron.make twoInputState 2 true).1.w.getD i 0)).data *
            (getN (Neuron.make twoInputState 2 true).2
              (([0, 1] : List Nat).getD i 0)).data ∧
    (∀ (t : St) (w2 : List Nat) (b2 : Nat) (y : List Nat),
      Neuron.call t ⟨w2, b2, true⟩ y = Neuron.call t ⟨w2, b2, false⟩ y)) :=
  ⟨⟨by decide, by decide⟩,
    C7_neuron_construction_and_eval twoInputState 2 true [0, 1] (by decide)
      (by decide)⟩

/-! ### The loss function of `value.cpp` -/

/-- Number of outputs `MLP::operator()` yields from an input of length `n`:
the neuron count of the last layer, or `n` itself if there are no layers. -/
def outLen (ls : List Layer) (n : Nat) : Nat :=
  ls.foldl (fun _ l => l.neurons.length) n

/-- One iteration of the scores loop of `loss`:
`scores.push_back(model->operator()(input)[0])`, the input row being the
singleton `[xr]` built from one element of `X`.  `getD 0 0` totalizes the
C++ `[0]` on the output vector. -/
def scoreStep (model : MLP) (acc : List Nat × St) (xr : Nat) :
    List Nat × St :=
  let (outs, s1) := MLP.call acc.2 model [xr]
  (acc.1 ++ [outs.getD 0 0], s1)

/-- The scores phase of `loss`: one forward pass per element of `X`. -/
def scoresPhase (s : St) (X : List Nat) (model : MLP) : List Nat × St :=
  X.foldl (scoreStep model) ([], s)

/-- One iteration of the per-example loss loop:
`losses.push_back(add(make_shared(1.0), multiply(y[i], scores[i])))`. -/
def lossTermStep (y scores : List Nat) (acc : List Nat × St) (i : Nat) :
    List Nat × St :=
  let (one, sA) := mkShared acc.2 1
  let (m, sB) := Value.multiply sA (y.getD i 0) (scores.getD i 0)
  let (li, sC) := Value.add sB one m
  (acc.1 ++ [li], sC)

/-- One iteration of an accumulation loop `acc = add(acc, v)`. -/
def sumStep (acc : Nat × St) (li : Nat) : Nat × St :=
  Value.add acc.2 acc.1 li

/-- One iteration of the L2 loop: `reg = add(reg, multiply(p, p))`. -/
def regStep (acc : Nat × St) (p : Nat) : Nat × St :=
  let (sq, s1) := Value.multiply acc.2 p p
  Value.add s1 acc.1 sq

/-- One iteration of the accuracy loop:
`accuracy.push_back(add(make_shared(y[i]->data > 0),
make_shared(scores[i]->data > 0)))` (C++ booleans convert to 1.0/0.0). -/
def accStep (y scores : List Nat) (acc : List Nat × St) (i : Nat) :
    List Nat × St :=
  let (u, sA) := mkShared acc.2 (if 0 < (getN acc.2 (y.getD i 0)).data then 1 else 0)
  let (v, sB) :=
    mkShared sA (if 0 < (getN sA (scores.getD i 0)).data then 1 else 0)
  let (ai, sC) := Value.add sB u v
  (acc.1 ++ [ai], sC)

/-- The `loss` function of `value.cpp`: forward passes to get `scores`, the
per-example terms `1 + y[i]*scores[i]` (no clamp, no sign flip), their mean
via `multiply(Σ, 1/n)`, L2 regularization `alpha * Σ p²` with
`alpha = 1e-4`, the returned total, and finally the accuracy subgraph
(built but not returned).  C++ leaves the evaluation order of call
arguments open; node allocation is modelled left-to-right, which does not
affect any node's data.  The unused `batch_size` parameter is dropped. -/
def lossFn (s : St) (X y : List Nat) (model : MLP) : Nat × St :=
  let sc := scoresPhase s X model
  let lt := (List.range y.length).foldl (lossTermStep y sc.1) ([], sc.2)
  let dl0 := mkShared lt.2 0
  let dl1 := lt.1.foldl sumStep (dl0.1, dl0.2)
  let invN := mkShared dl1.2 (1 / (lt.1.length : ℚ))
  let dataLoss := Value.multiply invN.2 dl1.1 invN.1
  let rl0 := mkShared dataLoss.2 0
  let rl1 := (MLP.parameters model).foldl regStep (rl0.1, rl0.2)
  let alphaId := mkShared rl1.2 (1 / 10000)
  let regLoss := Value.multiply alphaId.2 rl1.1 alphaId.1
  let totalLoss := Value.add regLoss.2 dataLoss.1 regLoss.1
  let accs := (List.range y.length).foldl (accStep y sc.1) ([], totalLoss.2)
  let ac0 := mkShared accs.2 0
  let ac1 := accs.1.foldl sumStep (ac0.1, ac0.2)
  let invA := mkShared ac1.2 (1 / (accs.1.length : ℚ))
  let acOut := Value.multiply invA.2 ac1.1 invA.1
  (totalLoss.1, acOut.2)

/-! ### Frame lemmas for the forward passes -/

/-- Frame facts of the neuron evaluation loop with no assumptions on the
weight or input handles: the arena only grows and the accumulator handle
stays valid. -/
theorem neuron_loop_basic (t : St) (nr : Neuron) (x : List Nat)
    (hb : nr.b < t.length) :
    ∀ k, Ext t ((List.range k).foldl (neuronStep nr x) (nr.b, t)).2 ∧
      ((List.range k).foldl (neuronStep nr x) (nr.b, t)).1 <
        ((List.range k).foldl (neuronStep nr x) (nr.b, t)).2.length := by
  intro k
  induction k with
  | zero => exact ⟨Ext.refl t, hb⟩
  | succ k ih =>
      rw [List.range_succ, List.foldl_append, List.foldl_cons, List.foldl_nil]
      obtain ⟨hext, hact⟩ := ih
      set acc := (List.range k).foldl (neuronStep nr x) (nr.b, t) with hacc
      have hres : neuronStep nr x acc k =
          Value.add (Value.multiply acc.2 (nr.w.getD k 0) (x.getD k 0)).2 acc.1
            (Value.multiply acc.2 (nr.w.getD k 0) (x.getD k 0)).1 := rfl
      rw [hres]
      constructor
      · exact (hext.trans (ext_multiply _ _ _)).trans (ext_add _ _ _)
      · rw [add_snd]
        show (Value.multiply acc.2 (nr.w.getD k 0) (x.getD k 0)).2.length < _
        simp

theorem neuron_call_basic (t : St) (nr : Neuron) (x : List Nat)
    (hb : nr.b < t.length) :
    Ext t (Neuron.call t nr x).2 ∧
      (Neuron.call t nr x).1 < (Neuron.call t nr x).2.length := by
  obtain ⟨h1, h2⟩ := neuron_loop_basic t nr x hb x.length
  unfold Neuron.call
  simp only [Bool.cond_self]
  exact ⟨h1, h2⟩

theorem layer_loop_spec (x : List Nat) :
    ∀ (ns : List Neuron) (t : St) (outs : List Nat),
      (∀ nr ∈ ns, nr.b < t.length) →
      (∀ o ∈ outs, o < t.length) →
      Ext t (ns.foldl (layerStep x) (outs, t)).2 ∧
      (∀ o ∈ (ns.foldl (layerStep x) (outs, t)).1,
        o < (ns.foldl (layerStep x) (outs, t)).2.length) ∧
      (ns.foldl (layerStep x) (outs, t)).1.length = outs.length + ns.length := by
  intro ns
  induction ns with
  | nil =>
      intro t outs _ houts
      exact ⟨Ext.refl t, houts, by simp⟩
  | cons nr ns ih =>
      intro t outs hns houts
      rw [List.foldl_cons]
      have hcall := neuron_call_basic t nr x (hns nr (List.mem_cons_self nr ns))
      have hstep : layerStep x (outs, t) nr =
          (outs ++ [(Neuron.call t nr x).1], (Neuron.call t nr x).2) := rfl
      rw [hstep]
      have hlen : t.length ≤ (Neuron.call t nr x).2.length := hcall.1.length_le
      obtain ⟨h1, h2, h3⟩ := ih (Neuron.call t nr x).2
        (outs ++ [(Neuron.call t nr x).1])
        (fun nr2 hnr2 =>
          lt_of_lt_of_le (hns nr2 (List.mem_cons.mpr (Or.inr hnr2))) hlen)
        (by
          intro o ho
          rcases List.mem_append.mp ho with h | h
          · exact lt_of_lt_of_le (houts o h) hlen
          · rw [List.mem_singleton.mp h]
            exact hcall.2)
      refine ⟨hcall.1.trans h1, h2, ?_⟩
      rw [h3]
      simp only [List.length_append, List.length_cons, List.length_nil]
      omega

theorem layer_call_spec (t : St) (l : Layer) (x : List Nat)
    (hv : ∀ nr ∈ l.neurons, nr.b < t.length) :
    Ext t (Layer.call t l x).2 ∧
    (∀ o ∈ (Layer.call t l x).1, o < (Layer.call t l x).2.length) ∧
    (Layer.call t l x).1.length = l.neurons.length := by
  obtain ⟨h1, h2, h3⟩ := layer_loop_spec x l.neurons t [] hv (by simp)
  unfold Layer.call
  exact ⟨h1, h2, by simpa using h3⟩

theorem mlp_loop_spec :
    ∀ (ls : List Layer) (t : St) (x : List Nat),
      (∀ l ∈ ls, ∀ nr ∈ l.neurons, nr.b < t.length) →
      (∀ id ∈ x, id < t.length) →
      Ext t (ls.foldl (fun (acc : List Nat × St) l => Layer.call acc.2 l acc.1)
        (x, t)).2 ∧
      (∀ o ∈ (ls.foldl (fun (acc : List Nat × St) l => Layer.call acc.2 l acc.1)
          (x, t)).1,
        o < (ls.foldl (fun (acc : List Nat × St) l => Layer.call acc.2 l acc.1)
          (x, t)).2.length) ∧
      (ls.foldl (fun (acc : List Nat × St) l => Layer.call acc.2 l acc.1)
          (x, t)).1.length = outLen ls x.length := by
  intro ls
  induction ls with
  | nil =>
      intro t x _ hx
      exact ⟨Ext.refl t, hx, rfl⟩
  | cons l ls ih =>
      intro t x hls hx
      rw [List.foldl_cons]
      have hstep : Layer.call (x, t).2 l (x, t).1 =
          ((Layer.call t l x).1, (Layer.call t l x).2) := rfl
      rw [hstep]
      have hcall := layer_call_spec t l x (hls l (List.mem_cons_self l ls))
      have hlen : t.length ≤ (Layer.call t l x).2.length := hcall.1.length_le
      obtain ⟨h1, h2, h3⟩ := ih (Layer.call t l x).2 (Layer.call t l x).1
        (fun l2 hl2 nr hnr =>
          lt_of_lt_of_le (hls l2 (List.mem_cons.mpr (Or.inr hl2)) nr hnr) hlen)
        hcall.2.1
      refine ⟨hcall.1.trans h1, h2, ?_⟩
      rw [h3, hcall.2.2]
      rfl

theorem mlp_call_spec (t : St) (m : MLP) (x : List Nat)
    (hm : ∀ l ∈ m.layers, ∀ nr ∈ l.neurons, nr.b < t.length)
    (hx : ∀ id ∈ x, id < t.length) :
    Ext t (MLP.call t m x).2 ∧
    (∀ o ∈ (MLP.call t m x).1, o < (MLP.call t m x).2.length) ∧
    (MLP.call t m x).1.length = outLen m.layers x.length := by
  obtain ⟨h1, h2, h3⟩ := mlp_loop_spec m.layers t x hm hx
  exact ⟨h1, h2, h3⟩

/-- The scores loop of `loss`: each iteration appends one valid score
handle; the arena only grows. -/
theorem scores_loop_spec (model : MLP) (hout : 0 < outLen model.layers 1) :
    ∀ (xs : List Nat) (t : St) (sc : List Nat),
      (∀ l ∈ model.layers, ∀ nr ∈ l.neurons, nr.b < t.length) →
      (∀ id ∈ xs, id < t.length) →
      (∀ o ∈ sc, o < t.length) →
      Ext t (xs.foldl (scoreStep model) (sc, t)).2 ∧
      (∀ o ∈ (xs.foldl (scoreStep model) (sc, t)).1,
        o < (xs.foldl (scoreStep model) (sc, t)).2.length) ∧
      (xs.foldl (scoreStep model) (sc, t)).1.length = sc.length + xs.length := by
  intro xs
  induction xs with
  | nil =>
      intro t sc _ _ hsc
      exact ⟨Ext.refl t, hsc, by simp⟩
  | cons xr xs ih =>
      intro t sc hm hxs hsc
      rw [List.foldl_cons]
      have hxr : ∀ id ∈ ([xr] : List Nat), id < t.length := by
        intro id hid
        rw [List.mem_singleton.mp hid]
        exact hxs xr (List.mem_cons_self xr xs)
      have hcall := mlp_call_spec t model [xr] hm hxr
      have hstep : scoreStep model (sc, t) xr =
          (sc ++ [(MLP.call t model [xr]).1.getD 0 0], (MLP.call t model [xr]).2) :=
        rfl
      rw [hstep]
      have hlen : t.length ≤ (MLP.call t model [xr]).2.length := hcall.1.length_le
      have hscore : (MLP.call t model [xr]).1.getD 0 0 <
          (MLP.call t model [xr]).2.length := by
        refine hcall.2.1 _ (getD_mem_of_lt _ _ _ ?_)
        rw [hcall.2.2]
        exact hout
      obtain ⟨h1, h2, h3⟩ := ih (MLP.call t model [xr]).2
        (sc ++ [(MLP.call t model [xr]).1.getD 0 0])
        (fun l2 hl2 nr hnr => lt_of_lt_of_le (hm l2 hl2 nr hnr) hlen)
        (fun id hid => lt_of_lt_of_le (hxs id (List.mem_cons.mpr (Or.inr hid))) hlen)
        (by
          intro o ho
          rcases List.mem_append.mp ho with h | h
          · exact lt_of_lt_of_le (hsc o h) hlen
          · rw [List.mem_singleton.mp h]
            exact hscore)
      refine ⟨hcall.1.trans h1, h2, ?_⟩
      rw [h3]
      simp only [List.length_append, List.length_cons, List.length_nil]
      omega

/-! ### Value lemmas for the loss construction -/

/-- The per-example loss loop: after `k` iterations the list holds `k`
valid handles whose data is `1 + y[j]·scores[j]` (read in the entry state
`s1`, whose nodes the loop never mutates). -/
theorem lossTerms_spec (y scores : List Nat) (s1 : St)
    (hy : ∀ i, i < y.length → y.getD i 0 < s1.length)
    (hsc : ∀ i, i < y.length → scores.getD i 0 < s1.length) :
    ∀ k, k ≤ y.length →
      Ext s1 ((List.range k).foldl (lossTermStep y scores) ([], s1)).2 ∧
      ((List.range k).foldl (lossTermStep y scores) ([], s1)).1.length = k ∧
      (∀ j, j < k →
        ((List.range k).foldl (lossTermStep y scores) ([], s1)).1.getD j 0 <
          ((List.range k).foldl (lossTermStep y scores) ([], s1)).2.length ∧
        (getN ((List.range k).foldl (lossTermStep y scores) ([], s1)).2
            (((List.range k).foldl (lossTermStep y scores) ([], s1)).1.getD j 0)).data
          = 1 + (getN s1 (y.getD j 0)).data * (getN s1 (scores.getD j 0)).data) := by
  intro k
  induction k with
  | zero =>
      intro _
      exact ⟨Ext.refl s1, by simp, by omega⟩
  | succ k ih =>
      intro hk
      obtain ⟨hext, hlen, hvals⟩ := ih (Nat.le_of_succ_le hk)
      have hkx : k < y.length := hk
      rw [List.range_succ, List.foldl_append, List.foldl_cons, List.foldl_nil]
      set acc := (List.range k).foldl (lossTermStep y scores) ([], s1) with hacc
      set sA := acc.2 ++ [(⟨1, 0, .leaf⟩ : Value)] with hsA
      have hres : lossTermStep y scores acc k =
          (acc.1 ++ [(Value.add (Value.multiply sA (y.getD k 0) (scores.getD k 0)).2
              acc.2.length
              (Value.multiply sA (y.getD k 0) (scores.getD k 0)).1).1],
            (Value.add (Value.multiply sA (y.getD k 0) (scores.getD k 0)).2
              acc.2.length
              (Value.multiply sA (y.getD k 0) (scores.getD k 0)).1).2) := rfl
      rw [hres]
      dsimp only
      set sB := (Value.multiply sA (y.getD k 0) (scores.getD k 0)).2 with hsB
      have hyk : y.getD k 0 < acc.2.length :=
        Nat.lt_of_lt_of_le (hy k hkx) hext.length_le
      have hsk : scores.getD k 0 < acc.2.length :=
        Nat.lt_of_lt_of_le (hsc k hkx) hext.length_le
      have hextA : Ext acc.2 sA := ⟨_, rfl⟩
      have hextB : Ext sA sB := ext_multiply _ _ _
      have hsAlen : sA.length = acc.2.length + 1 := by
        rw [hsA]; simp
      have hsBlen : sB.length = acc.2.length + 2 := by
        rw [hsB, multiply_snd]
        simp only [List.length_append, List.length_cons, List.length_nil]
        omega
      have hmulval : (getN sB sA.length).data =
          (getN s1 (y.getD k 0)).data * (getN s1 (scores.getD k 0)).data := by
        rw [hsB, multiply_snd, getN_append_self]
        dsimp only
        rw [hextA.getN_eq hyk, hextA.getN_eq hsk,
          hext.getN_eq (hy k hkx), hext.getN_eq (hsc k hkx)]
      have honeval : (getN sB acc.2.length).data = 1 := by
        rw [hsB, multiply_snd, getN_append_lt _ _ _ (by omega)]
        rw [hsA]
        rw [getN_append_self]
      have hmfst : (Value.multiply sA (y.getD k 0) (scores.getD k 0)).1 =
          sA.length := rfl
      have haddfst : (Value.add sB acc.2.length
          (Value.multiply sA (y.getD k 0) (scores.getD k 0)).1).1 = sB.length := rfl
      have hnewval : (getN (Value.add sB acc.2.length
            (Value.multiply sA (y.getD k 0) (scores.getD k 0)).1).2 sB.length).data
          = 1 + (getN s1 (y.getD k 0)).data * (getN s1 (scores.getD k 0)).data := by
        rw [add_snd, getN_append_self]
        dsimp only
        rw [hmfst, hmulval, honeval]
      have hextFull : Ext acc.2 (Value.add sB acc.2.length
          (Value.multiply sA (y.getD k 0) (scores.getD k 0)).1).2 :=
        (hextA.trans hextB).trans (ext_add _ _ _)
      have hflen : (Value.add sB acc.2.length
          (Value.multiply sA (y.getD k 0) (scores.getD k 0)).1).2.length =
          acc.2.length + 3 := by
        rw [add_snd]
        simp only [List.length_append, List.length_cons, List.length_nil]
        omega
      refine ⟨hext.trans hextFull, by simp [hlen], ?_⟩
      intro j hj
      rcases Nat.lt_or_ge j k with hjk | hjk
      · obtain ⟨hv1, hv2⟩ := hvals j hjk
        have hgetD : (acc.1 ++ [(Value.add sB acc.2.length
              (Value.multiply sA (y.getD k 0) (scores.getD k 0)).1).1]).getD j 0 =
            acc.1.getD j 0 := by
          rw [List.getD_append _ _ _ _ (by omega)]
        rw [hgetD]
        constructor
        · omega
        · rw [hextFull.getN_eq hv1]
          exact hv2
      · have hjeq : j = k := by omega
        subst hjeq
        have hgetD : (acc.1 ++ [(Value.add sB acc.2.length
              (Value.multiply sA (y.getD j 0) (scores.getD j 0)).1).1]).getD j 0 =
            (Value.add sB acc.2.length
              (Value.multiply sA (y.getD j 0) (scores.getD j 0)).1).1 := by
          rw [List.getD_append_right _ _ _ _ (by omega), hlen]
          simp
        rw [hgetD, haddfst]
        constructor
        · omega
        · exact hnewval

/-- Value of the accumulation loop `acc = add(acc, v)` over a list of valid
handles: the start value plus the sum of the handles' data. -/
theorem sum_fold_spec :
    ∀ (ids : List Nat) (t : St) (a : Nat), a < t.length →
      (∀ li ∈ ids, li < t.length) →
      Ext t (ids.foldl sumStep (a, t)).2 ∧
      (ids.foldl sumStep (a, t)).1 < (ids.foldl sumStep (a, t)).2.length ∧
      (getN (ids.foldl sumStep (a, t)).2 (ids.foldl sumStep (a, t)).1).data
        = (getN t a).data + (ids.map (fun li => (getN t li).data)).sum := by
  intro ids
  induction ids with
  | nil =>
      intro t a ha _
      exact ⟨Ext.refl t, ha, by simp⟩
  | cons li ids ih =>
      intro t a ha hids
      rw [List.foldl_cons]
      have hstep : sumStep (a, t) li =
          ((Value.add t a li).1, (Value.add t a li).2) := rfl
      rw [hstep]
      have hext := ext_add t a li
      obtain ⟨h1, h2, h3⟩ := ih (Value.add t a li).2 (Value.add t a li).1
        (by
          have hfst : (Value.add t a li).1 = t.length := rfl
          rw [hfst, add_snd]
          simp)
        (fun li2 hli2 =>
          Nat.lt_of_lt_of_le (hids li2 (List.mem_cons.mpr (Or.inr hli2)))
            hext.length_le)
      refine ⟨hext.trans h1, h2, ?_⟩
      rw [h3]
      have hval : (getN (Value.add t a li).2 (Value.add t a li).1).data
          = (getN t a).data + (getN t li).data := by
        have hfst : (Value.add t a li).1 = t.length := rfl
        rw [hfst, add_snd, getN_append_self]
      rw [hval]
      have hmap : ids.map (fun li2 => (getN (Value.add t a li).2 li2).data)
          = ids.map (fun li2 => (getN t li2).data) := by
        refine List.map_congr_left ?_
        intro li2 hli2
        rw [hext.getN_eq (hids li2 (List.mem_cons.mpr (Or.inr hli2)))]
      rw [hmap, List.map_cons, List.sum_cons]
      ring

/-- Value of the L2 loop `reg = add(reg, multiply(p, p))` over a list of
valid parameter handles: the start value plus the sum of squares. -/
theorem reg_fold_spec :
    ∀ (ps : List Nat) (t : St) (a : Nat), a < t.length →
      (∀ p ∈ ps, p < t.length) →
      Ext t (ps.foldl regStep (a, t)).2 ∧
      (ps.foldl regStep (a, t)).1 < (ps.foldl regStep (a, t)).2.length ∧
      (getN (ps.foldl regStep (a, t)).2 (ps.foldl regStep (a, t)).1).data
        = (getN t a).data +
          (ps.map (fun p => (getN t p).data * (getN t p).data)).sum := by
  intro ps
  induction ps with
  | nil =>
      intro t a ha _
      exact ⟨Ext.refl t, ha, by simp⟩
  | cons p ps ih =>
      intro t a ha hps
      rw [List.foldl_cons]
      have hp : p < t.length := hps p (List.mem_cons_self p ps)
      have hstep : regStep (a, t) p =
          ((Value.add (Value.multiply t p p).2 a (Value.multiply t p p).1).1,
            (Value.add (Value.multiply t p p).2 a (Value.multiply t p p).1).2) :=
        rfl
      rw [hstep]
      have hextM := ext_multiply t p p
      have hextA := ext_add (Value.multiply t p p).2 a (Value.multiply t p p).1
      have hext := hextM.trans hextA
      obtain ⟨h1, h2, h3⟩ := ih
        (Value.add (Value.multiply t p p).2 a (Value.multiply t p p).1).2
        (Value.add (Value.multiply t p p).2 a (Value.multiply t p p).1).1
        (by
          have hfst : (Value.add (Value.multiply t p p).2 a
              (Value.multiply t p p).1).1 = (Value.multiply t p p).2.length := rfl
          rw [hfst, add_snd]
          simp)
        (fun p2 hp2 =>
          Nat.lt_of_lt_of_le (hps p2 (List.mem_cons.mpr (Or.inr hp2)))
            hext.length_le)
      refine ⟨hext.trans h1, h2, ?_⟩
      rw [h3]
      have hval : (getN (Value.add (Value.multiply t p p).2 a
            (Value.multiply t p p).1).2
          (Value.add (Value.multiply t p p).2 a (Value.multiply t p p).1).1).data
          = (getN t a).data + (getN t p).data * (getN t p).data := by
        have hfst : (Value.add (Value.multiply t p p).2 a
            (Value.multiply t p p).1).1 = (Value.multiply t p p).2.length := rfl
        rw [hfst, add_snd, getN_append_self]
        dsimp only
        have hmfst : (Value.multiply t p p).1 = t.length := rfl
        rw [hmfst, hextM.getN_eq ha, multiply_snd, getN_append_self]
      rw [hval]
      have hmap : ps.map (fun p2 => (getN (Value.add (Value.multiply t p p).2 a
            (Value.multiply t p p).1).2 p2).data *
            (getN (Value.add (Value.multiply t p p).2 a
              (Value.multiply t p p).1).2 p2).data)
          = ps.map (fun p2 => (getN t p2).data * (getN t p2).data) := by
        refine List.map_congr_left ?_
        intro p2 hp2
        rw [hext.getN_eq (hps p2 (List.mem_cons.mpr (Or.inr hp2)))]
      rw [hmap, List.map_cons, List.sum_cons]
      ring

/-- Any fold whose step only extends the arena extends the arena
(list-accumulator version, for the accuracy loop). -/
theorem foldl_pairlist_ext {β : Type} (step : (List Nat × St) → β → List Nat × St)
    (hstep : ∀ acc b, Ext acc.2 (step acc b).2) :
    ∀ (l : List β) (acc : List Nat × St), Ext acc.2 (l.foldl step acc).2 := by
  intro l
  induction l with
  | nil => intro acc; exact Ext.refl _
  | cons b l ih =>
      intro acc
      rw [List.foldl_cons]
      exact (hstep acc b).trans (ih (step acc b))

/-- Any fold whose step only extends the arena extends the arena
(handle-accumulator version, for the final accumulation loops). -/
theorem foldl_pair_ext {β : Type} (step : (Nat × St) → β → Nat × St)
    (hstep : ∀ acc b, Ext acc.2 (step acc b).2) :
    ∀ (l : List β) (acc : Nat × St), Ext acc.2 (l.foldl step acc).2 := by
  intro l
  induction l with
  | nil => intro acc; exact Ext.refl _
  | cons b l ih =>
      intro acc
      rw [List.foldl_cons]
      exact (hstep acc b).trans (ih (step acc b))

theorem accStep_ext (y scores : List Nat) (acc : List Nat × St) (i : Nat) :
    Ext acc.2 (accStep y scores acc i).2 := by
  unfold accStep mkShared Value.add
  dsimp only
  exact ⟨_, by rw [List.append_assoc, List.append_assoc]⟩

theorem sumStep_ext (acc : Nat × St) (li : Nat) : Ext acc.2 (sumStep acc li).2 :=
  ⟨_, rfl⟩

/-- Sum of a list of data values re-indexed over positions. -/
theorem map_sum_eq_range_sum (f : Nat → ℚ) :
    ∀ (L : List Nat),
      (L.map f).sum = ∑ i in Finset.range L.length, f (L.getD i 0) := by
  intro L
  induction L with
  | nil => simp
  | cons a L ih =>
      rw [List.map_cons, List.sum_cons, ih, List.length_cons,
        Finset.sum_range_succ']
      simp [add_comm]

/-! ### C8: the value of the loss node -/

/-- C8. For a nonempty label vector no longer than `X`, with all handles
valid and a model whose last layer is nonempty, `loss` returns a node whose
data is the mean over examples of `1 + y[i]·score[i]` — no `max(0,·)` clamp
and no sign flip on `y` — plus `alpha · Σ p²` over all model parameters
with `alpha = 1e-4` (scalars modelled exactly over `ℚ`; `score[i]` is the
data of the i-th node produced by the forward passes of the scores
phase). -/
theorem C8_loss_value (s : St) (X y : List Nat) (model : MLP)
    (_h0 : 0 < y.length) (hXy : y.length ≤ X.length)
    (hX : ∀ id ∈ X, id < s.length) (hy : ∀ id ∈ y, id < s.length)
    (hm : ∀ l ∈ model.layers, ∀ nr ∈ l.neurons, nr.b < s.length)
    (hp : ∀ p ∈ MLP.parameters model, p < s.length)
    (hout : 0 < outLen model.layers 1) :
    (getN (lossFn s X y model).2 (lossFn s X y model).1).data =
      (∑ i in Finset.range y.length,
        (1 + (getN s (y.getD i 0)).data *
          (getN (scoresPhase s X model).2
            ((scoresPhase s X model).1.getD i 0)).data)) / (y.length : ℚ) +
      (1 / 10000) *
        ((MLP.parameters model).map
          (fun p => (getN s p).data * (getN s p).data)).sum := by
  -- Phase 1: scores.
  obtain ⟨hext1, hscv, hsclen⟩ :=
    scores_loop_spec model hout X s [] hm hX (by simp)
  set sc := scoresPhase s X model with hscdef
  have hph1 : X.foldl (scoreStep model) ([], s) = sc := rfl
  rw [hph1] at hext1 hscv hsclen
  have hsclen' : sc.1.length = X.length := by simpa using hsclen
  -- Phase 2: per-example loss terms.
  have hyv : ∀ i, i < y.length → y.getD i 0 < sc.2.length := fun i hi =>
    Nat.lt_of_lt_of_le (hy _ (getD_mem_of_lt _ _ _ hi)) hext1.length_le
  have hscv2 : ∀ i, i < y.length → sc.1.getD i 0 < sc.2.length := fun i hi =>
    hscv _ (getD_mem_of_lt _ _ _ (by rw [hsclen']; omega))
  obtain ⟨hext2, hLlen, hLvals⟩ :=
    lossTerms_spec y sc.1 sc.2 hyv hscv2 y.length (Nat.le_refl _)
  set lt := (List.range y.length).foldl (lossTermStep y sc.1) ([], sc.2) with hltdef
  have hLmem : ∀ li ∈ lt.1, li < lt.2.length := by
    intro li hli
    obtain ⟨j, hjlen, hjget⟩ := List.mem_iff_getElem.mp hli
    have hjy : j < y.length := by rw [← hLlen]; exact hjlen
    have hgd : lt.1.getD j 0 = li := by
      rw [List.getD_eq_getElem lt.1 0 hjlen, hjget]
    rw [← hgd]
    exact (hLvals j hjy).1
  -- data_loss accumulation.
  set dl0 := mkShared lt.2 0 with hdl0def
  have hdl0fst : dl0.1 = lt.2.length := rfl
  have hdl0snd : dl0.2 = lt.2 ++ [⟨0, 0, .leaf⟩] := rfl
  have hdl0lt : dl0.1 < dl0.2.length := by
    rw [hdl0fst, hdl0snd]
    simp
  have hdl0len : dl0.2.length = lt.2.length + 1 := by rw [hdl0snd]; simp
  obtain ⟨hext3, hdl1lt, hdl1val⟩ := sum_fold_spec lt.1 dl0.2 dl0.1 hdl0lt
    (fun li hli => by rw [hdl0len]; exact Nat.lt_succ_of_lt (hLmem li hli))
  set dl1 := lt.1.foldl sumStep (dl0.1, dl0.2) with hdl1def
  have hdl0val : (getN dl0.2 dl0.1).data = 0 := by
    rw [hdl0fst, hdl0snd, getN_append_self]
  have hmap1 : lt.1.map (fun li => (getN dl0.2 li).data)
      = lt.1.map (fun li => (getN lt.2 li).data) := by
    refine List.map_congr_left ?_
    intro li hli
    rw [Ext.getN_eq ⟨_, hdl0snd⟩ (hLmem li hli)]
  have hsum1 : (lt.1.map (fun li => (getN lt.2 li).data)).sum =
      ∑ i in Finset.range y.length,
        (1 + (getN s (y.getD i 0)).data * (getN sc.2 (sc.1.getD i 0)).data) := by
    rw [map_sum_eq_range_sum, hLlen]
    refine Finset.sum_congr rfl ?_
    intro i hi
    have hiy : i < y.length := Finset.mem_range.mp hi
    rw [(hLvals i hiy).2, hext1.getN_eq (hy _ (getD_mem_of_lt _ _ _ hiy))]
  have hdl1val' : (getN dl1.2 dl1.1).data =
      ∑ i in Finset.range y.length,
        (1 + (getN s (y.getD i 0)).data * (getN sc.2 (sc.1.getD i 0)).data) := by
    rw [hdl1val, hdl0val, hmap1, hsum1, zero_add]
  -- mean: multiply by 1/n.
  set invN := mkShared dl1.2 (1 / (lt.1.length : ℚ)) with hinvNdef
  have hinvNfst : invN.1 = dl1.2.length := rfl
  have hinvNsnd : invN.2 = dl1.2 ++ [⟨1 / (lt.1.length : ℚ), 0, .leaf⟩] := rfl
  have hinvNlen : invN.2.length = dl1.2.length + 1 := by rw [hinvNsnd]; simp
  set dataLoss := Value.multiply invN.2 dl1.1 invN.1 with hdataLossdef
  have hdLfst : dataLoss.1 = invN.2.length := rfl
  have hdLsnd : dataLoss.2 = invN.2 ++
      [⟨(getN invN.2 dl1.1).data * (getN invN.2 invN.1).data, 0,
        .mul dl1.1 invN.1⟩] := rfl
  have hdLlen : dataLoss.2.length = invN.2.length + 1 := by rw [hdLsnd]; simp
  have hdLval : (getN dataLoss.2 dataLoss.1).data =
      (getN invN.2 dl1.1).data * (getN invN.2 invN.1).data := by
    rw [hdLfst, hdLsnd, getN_append_self]
  have hinvNval : (getN invN.2 invN.1).data = 1 / (y.length : ℚ) := by
    rw [hinvNfst, hinvNsnd, getN_append_self]
    dsimp only
    rw [hLlen]
  have hdl1stable : (getN invN.2 dl1.1).data = (getN dl1.2 dl1.1).data := by
    rw [Ext.getN_eq ⟨_, hinvNsnd⟩ hdl1lt]
  have hdataLossval : (getN dataLoss.2 dataLoss.1).data =
      (∑ i in Finset.range y.length,
        (1 + (getN s (y.getD i 0)).data * (getN sc.2 (sc.1.getD i 0)).data)) *
        (1 / (y.length : ℚ)) := by
    rw [hdLval, hdl1stable, hdl1val', hinvNval]
  -- L2 regularization.
  set rl0 := mkShared dataLoss.2 0 with hrl0def
  have hrl0fst : rl0.1 = dataLoss.2.length := rfl
  have hrl0snd : rl0.2 = dataLoss.2 ++ [⟨0, 0, .leaf⟩] := rfl
  have hrl0len : rl0.2.length = dataLoss.2.length + 1 := by rw [hrl0snd]; simp
  have hrl0lt : rl0.1 < rl0.2.length := by rw [hrl0fst, hrl0len]; omega
  have hE1 : Ext lt.2 dl0.2 := ⟨_, hdl0snd⟩
  have hE2 : Ext dl1.2 invN.2 := ⟨_, hinvNsnd⟩
  have hE3 : Ext invN.2 dataLoss.2 := ⟨_, hdLsnd⟩
  have hE4 : Ext dataLoss.2 rl0.2 := ⟨_, hrl0snd⟩
  have hExtS7 : Ext s rl0.2 :=
    ((((hext1.trans hext2).trans hE1).trans hext3).trans hE2).trans
      (hE3.trans hE4)
  obtain ⟨hext4, hrl1lt, hrl1val⟩ := reg_fold_spec (MLP.parameters model)
    rl0.2 rl0.1 hrl0lt
    (fun p hpm => Nat.lt_of_lt_of_le (hp p hpm) hExtS7.length_le)
  set rl1 := (MLP.parameters model).foldl regStep (rl0.1, rl0.2) with hrl1def
  have hrl0val : (getN rl0.2 rl0.1).data = 0 := by
    rw [hrl0fst, hrl0snd, getN_append_self]
  have hmap2 : (MLP.parameters model).map
        (fun p => (getN rl0.2 p).data * (getN rl0.2 p).data)
      = (MLP.parameters model).map
        (fun p => (getN s p).data * (getN s p).data) := by
    refine List.map_congr_left ?_
    intro p hpm
    rw [hExtS7.getN_eq (hp p hpm)]
  have hrl1val' : (getN rl1.2 rl1.1).data =
      ((MLP.parameters model).map
        (fun p => (getN s p).data * (getN s p).data)).sum := by
    rw [hrl1val, hrl0val, hmap2, zero_add]
  -- multiply by alpha, add to the mean.
  set alphaId := mkShared rl1.2 (1 / 10000) with halphadef
  have halphafst : alphaId.1 = rl1.2.length := rfl
  have halphasnd : alphaId.2 = rl1.2 ++ [⟨1 / 10000, 0, .leaf⟩] := rfl
  have halphalen : alphaId.2.length = rl1.2.length + 1 := by rw [halphasnd]; simp
  set regLoss := Value.multiply alphaId.2 rl1.1 alphaId.1 with hregdef
  have hregfst : regLoss.1 = alphaId.2.length := rfl
  have hregsnd : regLoss.2 = alphaId.2 ++
      [⟨(getN alphaId.2 rl1.1).data * (getN alphaId.2 alphaId.1).data, 0,
        .mul rl1.1 alphaId.1⟩] := rfl
  have hreglen : regLoss.2.length = alphaId.2.length + 1 := by rw [hregsnd]; simp
  have hregval : (getN regLoss.2 regLoss.1).data =
      ((MLP.parameters model).map
        (fun p => (getN s p).data * (getN s p).data)).sum * (1 / 10000) := by
    have hE5 : Ext rl1.2 alphaId.2 := ⟨_, halphasnd⟩
    rw [hregfst, hregsnd, getN_append_self]
    dsimp only
    rw [hE5.getN_eq hrl1lt, hrl1val', halphafst, halphasnd, getN_append_self]
  set totalLoss := Value.add regLoss.2 dataLoss.1 regLoss.1 with htotaldef
  have htotfst : totalLoss.1 = regLoss.2.length := rfl
  have htotsnd : totalLoss.2 = regLoss.2 ++
      [⟨(getN regLoss.2 dataLoss.1).data + (getN regLoss.2 regLoss.1).data, 0,
        .add dataLoss.1 regLoss.1⟩] := rfl
  have htotlen : totalLoss.2.length = regLoss.2.length + 1 := by
    rw [htotsnd]; simp
  have hdataLossStable : (getN regLoss.2 dataLoss.1).data =
      (getN dataLoss.2 dataLoss.1).data := by
    have hlt : dataLoss.1 < dataLoss.2.length := by rw [hdLfst, hdLlen]; omega
    have hE4b : Ext dataLoss.2 rl0.2 := ⟨_, hrl0snd⟩
    have hE5b : Ext rl1.2 alphaId.2 := ⟨_, halphasnd⟩
    have hE6b : Ext alphaId.2 regLoss.2 := ⟨_, hregsnd⟩
    have hE : Ext dataLoss.2 regLoss.2 :=
      (hE4b.trans hext4).trans (hE5b.trans hE6b)
    rw [hE.getN_eq hlt]
  have htotval : (getN totalLoss.2 totalLoss.1).data =
      (∑ i in Finset.range y.length,
        (1 + (getN s (y.getD i 0)).data * (getN sc.2 (sc.1.getD i 0)).data)) *
        (1 / (y.length : ℚ)) +
      ((MLP.parameters model).map
        (fun p => (getN s p).data * (getN s p).data)).sum * (1 / 10000) := by
    rw [htotfst, htotsnd, getN_append_self]
    dsimp only
    rw [hdataLossStable, hdataLossval, hregval]
  -- the accuracy subgraph only extends the arena.
  set accs := (List.range y.length).foldl (accStep y sc.1) ([], totalLoss.2)
    with haccsdef
  have hExtAcc : Ext totalLoss.2 accs.2 := by
    rw [haccsdef]
    exact foldl_pairlist_ext (accStep y sc.1) (accStep_ext y sc.1) _ _
  set ac0 := mkShared accs.2 0 with hac0def
  have hac0snd : ac0.2 = accs.2 ++ [⟨0, 0, .leaf⟩] := rfl
  set ac1 := accs.1.foldl sumStep (ac0.1, ac0.2) with hac1def
  have hExtAc1 : Ext ac0.2 ac1.2 := by
    rw [hac1def]
    exact foldl_pair_ext sumStep sumStep_ext _ _
  set invA := mkShared ac1.2 (1 / (accs.1.length : ℚ)) with hinvAdef
  have hinvAsnd : invA.2 = ac1.2 ++ [⟨1 / (accs.1.length : ℚ), 0, .leaf⟩] := rfl
  set acOut := Value.multiply invA.2 ac1.1 invA.1 with hacOutdef
  have hacOutsnd : acOut.2 = invA.2 ++
      [⟨(getN invA.2 ac1.1).data * (getN invA.2 invA.1).data, 0,
        .mul ac1.1 invA.1⟩] := rfl
  have hE7 : Ext accs.2 ac0.2 := ⟨_, hac0snd⟩
  have hE8 : Ext ac1.2 invA.2 := ⟨_, hinvAsnd⟩
  have hE9 : Ext invA.2 acOut.2 := ⟨_, hacOutsnd⟩
  have hExtFinal : Ext totalLoss.2 acOut.2 :=
    ((hExtAcc.trans hE7).trans hExtAc1).trans (hE8.trans hE9)
  have htotlt : totalLoss.1 < totalLoss.2.length := by rw [htotfst, htotlen]; omega
  have hlossres : lossFn s X y model = (totalLoss.1, acOut.2) := rfl
  rw [hlossres]
  dsimp only
  rw [hExtFinal.getN_eq htotlt, htotval]
  rw [mul_one_div, mul_one_div, div_eq_mul_one_div
    (((MLP.parameters model).map (fun p => (getN s p).data * (getN s p).data)).sum)
    (10000 : ℚ)]
  ring

/-- A minimal model for the loss witness: `MLP(1, [1])`, whose arena holds
the single weight (handle 0) and bias (handle 1). -/
def lossWitnessModel : MLP := (MLP.make [] 1 [1]).1

/-- The witness arena: the model parameters, one input leaf with data 3
(handle 2) and one label leaf with data 1 (handle 3). -/
def lossWitnessState : St := (mkShared (mkShared (MLP.make [] 1 [1]).2 3).2 1).2

/-- Closed instance of `C8_loss_value` on the minimal model with `X = [2]`
and `y = [3]`. -/
theorem C8_witness :
    (0 < ([3] : List Nat).length ∧
      ([3] : List Nat).length ≤ ([2] : List Nat).length ∧
      (∀ id ∈ ([2] : List Nat), id < lossWitnessState.length) ∧
      (∀ id ∈ ([3] : List Nat), id < lossWitnessState.length) ∧
      (∀ l ∈ lossWitnessModel.layers, ∀ nr ∈ l.neurons,
        nr.b < lossWitnessState.length) ∧
      (∀ p ∈ MLP.parameters lossWitnessModel, p < lossWitnessState.length) ∧
      0 < outLen lossWitnessModel.layers 1) ∧
    ((getN (lossFn lossWitnessState [2] [3] lossWitnessModel).2
        (lossFn lossWitnessState [2] [3] lossWitnessModel).1).data =
      (∑ i in Finset.range ([3] : List Nat).length,
        (1 + (getN lossWitnessState (([3] : List Nat).getD i 0)).data *
          (getN (scoresPhase lossWitnessState [2] lossWitnessModel).2
            ((scoresPhase lossWitnessState [2] lossWitnessModel).1.getD i 0)).data))
        / (([3] : List Nat).length : ℚ) +
      (1 / 10000) *
        ((MLP.parameters lossWitnessModel).map
          (fun p => (getN lossWitnessState p).data *
            (getN lossWitnessState p).data)).sum) :=
  ⟨⟨by decide, by decide, by decide, by decide, by decide, by decide, by decide⟩,
    C8_loss_value lossWitnessState [2] [3] lossWitnessModel (by decide) (by decide)
      (by decide) (by decide) (by decide) (by decide) (by decide)⟩

end MPP
